import Mathlib

/-!
# LRU cache and consistent-hash ring (way0218/cache)

A shallow embedding of `lru.go` and `consistenthash.go`.

Modelling conventions.
* A Go `string` is a Lean `String`; `len(s)` is its UTF-8 byte size.
* `Value` is the interface `interface { Len() int }`: an otherwise
  uninterpreted payload together with the size it reports.  The reported size
  is a field, hence stable for the lifetime of the value.
* `int` and `int64` are 64-bit signed integers: a value of either type is an
  integer in `[-2^63, 2^63)`, and every `int64` operation of the source is
  followed by `toInt64`, the reduction modulo `2^64` into that range.  The
  size a `Value` reports is such an integer and may be negative.  `len(s)`
  is the byte count of a string held in memory, below `2^63`.
* `container/list` is modelled by a heap of elements addressed by natural
  numbers (the pointer `*list.Element`) and the list of the addresses currently
  linked, front first.  The map `cache` sends a key to an address.
* `OnEvicted` is an observer: the model records whether one is configured and
  appends every invocation to a log, together with the list and byte counter
  the callee can see at the time of the call.
-/

namespace LRU

/-- Conversion to `int64`: the integer of `[-2^63, 2^63)` congruent to `x`
modulo `2^64`.  It is the result of an `int64` operation whose exact result
is `x`. -/
def toInt64 (x : Int) : Int :=
  (x + 9223372036854775808) % 18446744073709551616 - 9223372036854775808

/-- The interface `Value`: a payload and the number from which the result of
`Len()` is taken. -/
structure Value where
  payload : Nat
  raw : Int
  deriving DecidableEq, Repr

/-- Method `Len() int` of a `Value`: an `int`, so a 64-bit signed integer. -/
def Value.Len (v : Value) : Int := toInt64 v.raw

/-- The struct `entry` of lru.go. -/
structure entry where
  key : String
  value : Value
  deriving DecidableEq, Repr

/-- One invocation of `OnEvicted(key, value)` and the state visible to it. -/
structure Call where
  key : String
  value : Value
  ll : List Nat
  nbytes : Int
  deriving DecidableEq, Repr

/-- The struct `Cache` of lru.go.  `heap` and `next` model the allocation of
list elements, `evictions` the calls made to `OnEvicted` so far. -/
structure Cache where
  maxBytes : Int
  nbytes : Int
  ll : List Nat
  cache : String → Option Nat
  OnEvicted : Bool
  heap : Nat → Option entry
  next : Nat
  evictions : List Call

/-- Go `len(key)` for a string. -/
def len (key : String) : Int := (key.utf8ByteSize : Int)

/-- The exact sum `len(kv.key) + kv.value.Len()`, before any reduction to
`int64`. -/
def entry.size (kv : entry) : Int := len kv.key + kv.value.Len

/-- Map assignment `m[k] = v` and `delete(m, k)` (with `none`). -/
def assign {α β : Type} [DecidableEq α] (m : α → Option β) (k : α) (v : Option β) :
    α → Option β :=
  fun x => if x = k then v else m x

/-- The method `list.MoveToFront`: no effect on an element not in the list. -/
def MoveToFront (l : List Nat) (el : Nat) : List Nat :=
  if el ∈ l then el :: l.erase el else l

/-- The method `list.Remove`. -/
def Remove (l : List Nat) (el : Nat) : List Nat := l.erase el

/-- The method `list.Back`. -/
def Back (l : List Nat) : Option Nat := l.getLast?

/-- Constructor `NewCache`; the parameter `maxBytes` is an `int64`. -/
def NewCache (maxBytes : Int) (onEvicted : Bool) : Cache :=
  { maxBytes := toInt64 maxBytes, nbytes := 0, ll := [], cache := fun _ => none,
    OnEvicted := onEvicted, heap := fun _ => none, next := 0, evictions := [] }

/-- Method `Cache.Get`: the new state and `(value, ok)` as an option. -/
def Cache.Get (c : Cache) (key : String) : Cache × Option Value :=
  match c.cache key with
  | some el =>
    let c1 := { c with ll := MoveToFront c.ll el }
    match c1.heap el with
    | some kv => (c1, some kv.value)
    | none => (c1, none)
  | none => (c, none)

/-- Method `Cache.RemoveOldest`. -/
def Cache.RemoveOldest (c : Cache) : Cache :=
  match Back c.ll with
  | some el =>
    let c1 := { c with ll := Remove c.ll el }
    match c1.heap el with
    | some kv =>
      let c2 := { c1 with cache := assign c1.cache kv.key none }
      let c3 := { c2 with nbytes := toInt64 (c2.nbytes - toInt64 (len kv.key + kv.value.Len)) }
      if c3.OnEvicted then
        { c3 with evictions := c3.evictions ++ [⟨kv.key, kv.value, c3.ll, c3.nbytes⟩] }
      else c3
    | none => c1
  | none => c

/-- The loop `for c.maxBytes != 0 && c.maxBytes < c.nbytes { c.RemoveOldest() }`
of `Add`, run for at most `fuel` tests of its condition; `none` when the fuel
is used up before the condition fails. -/
def evictLoop : Nat → Cache → Option Cache
  | 0, _ => none
  | fuel + 1, c =>
    if c.maxBytes ≠ 0 ∧ c.maxBytes < c.nbytes then evictLoop fuel c.RemoveOldest
    else some c

/-- The two branches of `Add` before its eviction loop. -/
def Cache.insert (c : Cache) (key : String) (value : Value) : Cache :=
  match c.cache key with
  | some el =>
    let c1 := { c with ll := MoveToFront c.ll el }
    match c1.heap el with
    | some kv =>
      let c2 := { c1 with nbytes := toInt64 (c1.nbytes + toInt64 (value.Len - kv.value.Len)) }
      { c2 with heap := assign c2.heap el (some { kv with value := value }) }
    | none => c1
  | none =>
    let el := c.next
    let c1 := { c with heap := assign c.heap el (some ⟨key, value⟩), next := el + 1,
                       ll := el :: c.ll }
    let c2 := { c1 with cache := assign c1.cache key (some el) }
    { c2 with nbytes := toInt64 (c2.nbytes + toInt64 (len key + value.Len)) }

/-- Method `Cache.Add`, with the fuel of its loop. -/
def Cache.Add (fuel : Nat) (c : Cache) (key : String) (value : Value) : Option Cache :=
  evictLoop fuel (c.insert key value)

/-- Method `Cache.Len`. -/
def Cache.Len (c : Cache) : Int := (c.ll.length : Int)

/-- The entries held in the recency list, front first. -/
def Cache.entries (c : Cache) : List entry :=
  c.ll.filterMap c.heap

/-- States a client can reach through the exported functions when every key
and value passed to `Add` satisfy `P`. -/
inductive ReachableWith (P : String → Value → Prop) : Cache → Prop
  | new (maxBytes : Int) (onEvicted : Bool) : ReachableWith P (NewCache maxBytes onEvicted)
  | add {c d : Cache} (fuel : Nat) (key : String) (value : Value) :
      ReachableWith P c → P key value → c.Add fuel key value = some d → ReachableWith P d
  | get {c : Cache} (key : String) : ReachableWith P c → ReachableWith P (c.Get key).1
  | removeOldest {c : Cache} : ReachableWith P c → ReachableWith P c.RemoveOldest

/-- States a client can reach through the exported functions. -/
def Reachable (c : Cache) : Prop := ReachableWith (fun _ _ => True) c

/-- Representation invariant tying the list, the index, the heap and the
byte counter together. -/
structure Inv (c : Cache) : Prop where
  nodup : c.ll.Nodup
  held : ∀ el ∈ c.ll, ∃ kv, c.heap el = some kv ∧ c.cache kv.key = some el
  indexed : ∀ k el, c.cache k = some el → el ∈ c.ll ∧ ∃ kv, c.heap el = some kv ∧ kv.key = k
  fresh : ∀ el ∈ c.ll, el < c.next
  bytes : c.nbytes = toInt64 (c.entries.map entry.size).sum

/-- The condition of the eviction loop of `Add`. -/
def Cache.over (c : Cache) : Prop := c.maxBytes ≠ 0 ∧ c.maxBytes < c.nbytes

instance (c : Cache) : Decidable c.over := by unfold Cache.over; infer_instance

/-- Exact sum of `len(key) + value.Len()` over a list of entries. -/
def total (es : List entry) : Int := (es.map entry.size).sum

/-- Entries with a key other than `k`, in their order. -/
def without (es : List entry) (k : String) : List entry :=
  es.filter (fun e => decide (e.key ≠ k))

/-- The value stored under `k` in a list of entries. -/
def lookup (es : List entry) (k : String) : Option Value :=
  (es.find? (fun e => decide (e.key = k))).map (fun e => e.value)

/-- Recency promotion on a list of entries: the entry of `k`, if any, moves
to the front. -/
def promote (es : List entry) (k : String) : List entry :=
  match es.find? (fun e => decide (e.key = k)) with
  | some e => e :: without es k
  | none => es

/-- The state after `RemoveOldest` of the element carrying `kv`, leaving the list `ys`. -/
def removed (c : Cache) (ys : List Nat) (kv : entry) : Cache :=
  { c with
    ll := ys
    cache := assign c.cache kv.key none
    nbytes := toInt64 (c.nbytes - toInt64 (len kv.key + kv.value.Len))
    evictions :=
      if c.OnEvicted then
        c.evictions ++
          [⟨kv.key, kv.value, ys, toInt64 (c.nbytes - toInt64 (len kv.key + kv.value.Len))⟩]
      else c.evictions }

/-- Every value of the list reports a non-negative size. -/
def NonNeg (es : List entry) : Prop := ∀ e ∈ es, 0 ≤ e.value.Len

instance (es : List entry) : Decidable (NonNeg es) := by unfold NonNeg; infer_instance

/-- The state after a call of `Add` with enough fuel for the list at hand
(the state itself if the loop does not return). -/
def Cache.added (c : Cache) (key : String) (value : Value) : Cache :=
  (c.Add (c.ll.length + 2) key value).getD c

/-- Cache of capacity 8 after `Add("k1", 2 bytes)`, `Add("k2", 2 bytes)`. -/
def demo2 : Cache := ((NewCache 8 true).added "k1" ⟨1, 2⟩).added "k2" ⟨2, 2⟩

/-- Cache `demo2` after `Add("k3", 2 bytes)`. -/
def demo3 : Cache := demo2.added "k3" ⟨3, 2⟩

/-- Cache of capacity 6 holding a value that reports the size -5. -/
def skew : Cache := ((NewCache 6 false).added "" ⟨0, -5⟩).added "b" ⟨1, 9⟩

/-- The arguments `(key, value)` of an invocation of `OnEvicted`. -/
def Call.pair (x : Call) : String × Value := (x.key, x.value)

/-- An entry as a pair `(key, value)`. -/
def entry.pair (e : entry) : String × Value := (e.key, e.value)

/-- The keys of the entries held in the recency list, front first. -/
def Cache.keys (c : Cache) : List String := c.entries.map entry.key

/-- Calls of `Add` and `Get` on a cache created by `NewCache(maxBytes, _)`,
with the pairs passed to `Add` so far, the latest first. -/
inductive Trace (maxBytes : Int) (cb : Bool) : List (String × Value) → Cache → Prop
  | new : Trace maxBytes cb [] (NewCache maxBytes cb)
  | add {adds : List (String × Value)} {c d : Cache} (fuel : Nat) (k : String) (v : Value) :
      Trace maxBytes cb adds c → c.Add fuel k v = some d → Trace maxBytes cb ((k, v) :: adds) d
  | get {adds : List (String × Value)} {c : Cache} (k : String) :
      Trace maxBytes cb adds c → Trace maxBytes cb adds (c.Get k).1

/-- The value of the latest `Add` of `k` in a history of calls, latest first. -/
def latest (adds : List (String × Value)) (k : String) : Option Value :=
  (adds.find? (fun a => decide (a.1 = k))).map Prod.snd

/-- Cache without limit after `Add("a", 5 bytes)`, `Add("b", 7 bytes)`,
`Get("a")`, `Add("a", 1 byte)`. -/
def free3 : Cache :=
  ((((NewCache 0 true).added "a" ⟨1, 5⟩).added "b" ⟨2, 7⟩).Get "a").1.added "a" ⟨3, 1⟩

/-- The largest `int64`. -/
def maxInt64 : Int := 9223372036854775807

/-- A key and value whose size is not negative and cannot carry the byte
counter of a cache of capacity `cap` past the largest `int64`. -/
def Fits (cap : Int) (key : String) (value : Value) : Prop :=
  0 ≤ value.Len ∧ cap + (len key + value.Len) ≤ maxInt64

/-- Cache of the largest capacity after `Add("a", v)` with `v.Len()` two
below the largest `int64`, and `Add("b", 5 bytes)`. -/
def brim : Cache :=
  ((NewCache 9223372036854775807 false).added "a" ⟨1, 9223372036854775806⟩).added "b" ⟨2, 5⟩

/-- Cache of capacity 8 after `Add("a", v)` with `v.Len()` the largest
`int64`, and `Add("b", 100 bytes)`. -/
def flood : Cache :=
  ((NewCache 8 false).added "a" ⟨0, 9223372036854775807⟩).added "b" ⟨1, 100⟩

/-- Cache of capacity 8 after `Add("a", v)` with `v.Len()` the largest
`int64`. -/
def glut : Cache := (NewCache 8 false).added "a" ⟨0, 9223372036854775807⟩

/-- Cache of the largest capacity after `Add("a", v)`, `Add("b", 0 bytes)`,
`Add("c", w)` with `v.Len()` and `w.Len()` two below the capacity. -/
def crest : Cache :=
  (((NewCache 9223372036854775807 false).added "a" ⟨1, 9223372036854775805⟩).added
    "b" ⟨2, 0⟩).added "c" ⟨3, 9223372036854775805⟩

/-- Cache without limit after `Add("b", 0 bytes)` and `Add("a", v)` with
`v.Len()` one below the largest `int64`. -/
def tilt : Cache := ((NewCache 0 true).added "b" ⟨1, 0⟩).added "a" ⟨2, 9223372036854775806⟩

/-- Cache without limit after `Add("a", 0 bytes)`. -/
def lone : Cache := (NewCache 0 false).added "a" ⟨1, 0⟩

/-- Cache `lone` after `Add("a", v)` with `v.Len()` the largest `int64`. -/
def lone2 : Cache := lone.added "a" ⟨2, 9223372036854775807⟩

end LRU

namespace Ring

/-- Type `Hash`, `func(data []byte) uint32`, as a function of the string whose
bytes are hashed; the result is reduced to 32 bits where it is used. -/
abbrev Hash := String → Nat

/-- One bit of the reflected CRC-32 division, polynomial `0xEDB88320`. -/
def crcStep (crc : Nat) : Nat :=
  if crc % 2 = 1 then (crc / 2) ^^^ 0xEDB88320 else crc / 2

/-- Function `crc32.ChecksumIEEE` of the Go standard library. -/
def ChecksumIEEE : Hash := fun s =>
  (s.toUTF8.toList.foldl (fun crc b => crcStep^[8] (crc ^^^ b.toNat)) 0xFFFFFFFF) ^^^ 0xFFFFFFFF

/-- The struct `Map` of consistenthash.go. -/
structure Map where
  hash : Hash
  replicas : Int
  keys : List Nat
  hashMap : Nat → Option String

/-- Constructor `NewMap`; `fn = none` is the nil hash function. -/
def NewMap (replicas : Int) (fn : Option Hash) : Map :=
  { replicas := replicas, hash := fn.getD ChecksumIEEE, keys := [], hashMap := fun _ => none }

/-- The expression `int(m.hash([]byte(s)))`: a `uint32` as an `int`. -/
def Map.point (m : Map) (s : String) : Nat := m.hash s % 4294967296

/-- Body of the inner loop of `Add` for replica `i` of the node `key`. -/
def Map.addPoint (m : Map) (key : String) (i : Nat) : Map :=
  let hash := m.point (toString i ++ key)
  { m with keys := m.keys ++ [hash]
           hashMap := fun p => if p = hash then some key else m.hashMap p }

/-- The inner loop `for i := 0; i < m.replicas; i++` of `Add`. -/
def Map.addNode (m : Map) (key : String) : Map :=
  (List.range m.replicas.toNat).foldl (fun m i => m.addPoint key i) m

/-- Function `sort.Ints`. -/
def sortInts (l : List Nat) : List Nat := l.insertionSort (fun a b => a ≤ b)

/-- Method `Map.Add`. -/
def Map.Add (m : Map) (keys : List String) : Map :=
  let m1 := keys.foldl Map.addNode m
  { m1 with keys := sortInts m1.keys }

/-- The loop of `sort.Search` on the interval `[i, j)`, for at most `fuel`
rounds; each round halves the interval, so `j - i` rounds are enough. -/
def searchLoop (f : Nat → Bool) : Nat → Nat → Nat → Nat
  | 0, i, _ => i
  | fuel + 1, i, j =>
    if i < j then
      let h := (i + j) / 2
      if !f h then searchLoop f fuel (h + 1) j else searchLoop f fuel i h
    else i

/-- Function `sort.Search` of the Go standard library. -/
def Search (n : Nat) (f : Nat → Bool) : Nat := searchLoop f n 0 n

/-- Method `Map.Get`. -/
def Map.Get (m : Map) (key : String) : String :=
  if m.keys.length = 0 then ""
  else
    let hash := m.point key
    let idx := Search m.keys.length (fun i => decide (m.keys.getD i 0 ≥ hash))
    (m.hashMap (m.keys.getD (idx % m.keys.length) 0)).getD ""

/-- Rings a client can build, with the node identifiers passed to `Add` so
far, in the order of the calls. -/
inductive Built : List String → Map → Prop
  | new (replicas : Int) (fn : Option Hash) : Built [] (NewMap replicas fn)
  | add {nodes : List String} {m : Map} (keys : List String) :
      Built nodes m → Built (nodes ++ keys) (m.Add keys)

/-- A hash function for examples: the number a string of decimal digits
denotes. -/
def digits : Hash := fun s => s.data.foldl (fun acc ch => acc * 10 + (ch.toNat - 48)) 0

/-- Ring with 3 replicas and the nodes "6", "4", "2" under `digits`: the
points are 2, 4, 6, 12, 14, 16, 22, 24, 26. -/
def demoRing : Map := (NewMap 3 (some digits)).Add ["6", "4", "2"]

/-- Ring with 3 replicas and three nodes under the default hash. -/
def ring3 : Map := (NewMap 3 none).Add ["node1", "node2", "node3"]

/-- The ring points the node `key` gets from `Add`. -/
def Map.points (m : Map) (key : String) : List Nat :=
  (List.range m.replicas.toNat).map (fun i => m.point (toString i ++ key))

/-- Clockwise successor: `p` is the least point not below `h`, or the least
point of all when every point is below `h`. -/
def Succ (ks : List Nat) (h p : Nat) : Prop :=
  p ∈ ks ∧ ((h ≤ p ∧ ∀ q ∈ ks, h ≤ q → p ≤ q) ∨ ((∀ q ∈ ks, q < h) ∧ ∀ q ∈ ks, p ≤ q))

/-- Representation invariant of the ring: the points are sorted and each has
an owner among `nodes`, which produced it. -/
structure RInv (nodes : List String) (m : Map) : Prop where
  sorted : m.keys.Sorted (fun a b => a ≤ b)
  owned : ∀ p ∈ m.keys, ∃ node ∈ nodes, m.hashMap p = some node ∧ p ∈ m.points node
  count : m.keys.length = m.replicas.toNat * nodes.length

/-- Ring with 2 replicas under `digits` where replica 0 of the node "12" and
replica 1 of the node "2" are both hashed from the string "12". -/
def collideRing : Map := (NewMap 2 (some digits)).Add ["12", "2"]

/-- Ring with 3 replicas to which the node "2" is added twice. -/
def dupRing : Map := ((NewMap 3 (some digits)).Add ["2"]).Add ["2"]

end Ring

namespace LRU

theorem toInt64_zero : toInt64 0 = 0 := by decide

theorem toInt64_range (x : Int) :
    -9223372036854775808 ≤ toInt64 x ∧ toInt64 x ≤ 9223372036854775807 := by
  unfold toInt64; omega

theorem toInt64_of_range {x : Int} (h1 : -9223372036854775808 ≤ x)
    (h2 : x ≤ 9223372036854775807) : toInt64 x = x := by
  unfold toInt64; omega

theorem Value.Len_range (v : Value) :
    -9223372036854775808 ≤ v.Len ∧ v.Len ≤ 9223372036854775807 := toInt64_range _

theorem split_of_mem {l : List Nat} {el : Nat} (hn : l.Nodup) (h : el ∈ l) :
    ∃ l1 l2, l = l1 ++ el :: l2 ∧ el ∉ l1 ∧ el ∉ l2 ∧ l.erase el = l1 ++ l2 := by
  obtain ⟨l1, l2, rfl⟩ := List.append_of_mem h
  have hm := (List.nodup_cons.1 (List.nodup_middle.1 hn)).1
  have h1 : el ∉ l1 := fun hx => hm (List.mem_append_left _ hx)
  have h2 : el ∉ l2 := fun hx => hm (List.mem_append_right _ hx)
  refine ⟨l1, l2, rfl, h1, h2, ?_⟩
  rw [List.erase_append_right _ h1, List.erase_cons_head]

theorem Inv_NewCache (maxBytes : Int) (onEvicted : Bool) : Inv (NewCache maxBytes onEvicted) := by
  constructor <;> simp [NewCache, Cache.entries, toInt64_zero]

theorem filterMap_agree {h1 h2 : Nat → Option entry} {l : List Nat}
    (h : ∀ a ∈ l, h1 a = h2 a) : l.filterMap h1 = l.filterMap h2 := by
  induction l with
  | nil => rfl
  | cons a l ih =>
    have ha := h a (List.mem_cons_self a l)
    have hl := ih (fun b hb => h b (List.mem_cons_of_mem a hb))
    simp [List.filterMap_cons, ha, hl]

theorem without_filterMap {heap : Nat → Option entry} {l : List Nat} {k : String}
    (h : ∀ a ∈ l, ∀ e, heap a = some e → e.key ≠ k) :
    without (l.filterMap heap) k = l.filterMap heap := by
  unfold without
  rw [List.filter_eq_self]
  intro e he
  obtain ⟨a, ha, hae⟩ := List.mem_filterMap.1 he
  simpa using h a ha e hae

theorem find_filterMap_none {heap : Nat → Option entry} {l : List Nat} {k : String}
    (h : ∀ a ∈ l, ∀ e, heap a = some e → e.key ≠ k) :
    (l.filterMap heap).find? (fun e => decide (e.key = k)) = none := by
  rw [List.find?_eq_none]
  intro e he
  obtain ⟨a, ha, hae⟩ := List.mem_filterMap.1 he
  simpa using h a ha e hae

theorem Inv.key_ne {c : Cache} (hI : Inv c) {k : String} {el a : Nat} {e : entry}
    (hk : c.cache k = some el) (ha : a ∈ c.ll) (hne : a ≠ el) (he : c.heap a = some e) :
    e.key ≠ k := by
  obtain ⟨kv, h1, h2⟩ := hI.held a ha
  rw [he] at h1
  cases h1
  intro hkey
  rw [hkey, hk] at h2
  exact hne (Option.some.inj h2).symm

theorem Inv.absent {c : Cache} (hI : Inv c) {k : String} (hk : c.cache k = none) :
    ∀ a ∈ c.ll, ∀ e, c.heap a = some e → e.key ≠ k := by
  intro a ha e he hkey
  obtain ⟨kv, h1, h2⟩ := hI.held a ha
  rw [he] at h1
  cases h1
  rw [hkey, hk] at h2
  cases h2

/-- What the index entry of a held key says about the list. -/
theorem Inv.locate {c : Cache} (hI : Inv c) {k : String} {el : Nat}
    (hk : c.cache k = some el) :
    ∃ kv, c.heap el = some kv ∧ kv.key = k ∧ el ∈ c.ll ∧
      MoveToFront c.ll el = el :: c.ll.erase el ∧ el ∉ c.ll.erase el ∧
      c.entries.find? (fun e => decide (e.key = k)) = some kv ∧
      without c.entries k = (c.ll.erase el).filterMap c.heap ∧
      total c.entries = kv.size + total ((c.ll.erase el).filterMap c.heap) := by
  obtain ⟨hmem, kv, hkv, hkey⟩ := hI.indexed k el hk
  obtain ⟨l1, l2, hll, h1, h2, her⟩ := split_of_mem hI.nodup hmem
  have hne : ∀ a ∈ l1 ++ l2, ∀ e, c.heap a = some e → e.key ≠ k := by
    intro a ha e he
    have hal : a ∈ c.ll := by
      rw [hll]
      rcases List.mem_append.1 ha with h | h
      · exact List.mem_append_left _ h
      · exact List.mem_append_right _ (List.mem_cons_of_mem _ h)
    have hael : a ≠ el := by
      rintro rfl
      rcases List.mem_append.1 ha with h | h
      · exact h1 h
      · exact h2 h
    exact hI.key_ne hk hal hael he
  have hne1 : ∀ a ∈ l1, ∀ e, c.heap a = some e → e.key ≠ k :=
    fun a ha => hne a (List.mem_append_left _ ha)
  have hne2 : ∀ a ∈ l2, ∀ e, c.heap a = some e → e.key ≠ k :=
    fun a ha => hne a (List.mem_append_right _ ha)
  have hent : c.entries = l1.filterMap c.heap ++ kv :: l2.filterMap c.heap := by
    simp [Cache.entries, hll, List.filterMap_append, List.filterMap_cons, hkv]
  refine ⟨kv, hkv, hkey, hmem, by simp [MoveToFront, hmem], ?_, ?_, ?_, ?_⟩
  · rw [her]
    intro hx
    rcases List.mem_append.1 hx with h | h
    · exact h1 h
    · exact h2 h
  · rw [hent, List.find?_append, find_filterMap_none hne1]
    simp [List.find?_cons, hkey]
  · rw [her, hent]
    have e1 := without_filterMap hne1
    have e2 := without_filterMap hne2
    unfold without at e1 e2 ⊢
    rw [List.filter_append, List.filter_cons, e1, e2]
    simp [hkey, List.filterMap_append]
  · rw [her, hent]
    simp [total, List.filterMap_append, List.sum_append]
    ring

theorem Inv.congr {c d : Cache} (hI : Inv c) (h1 : d.ll = c.ll) (h2 : d.cache = c.cache)
    (h3 : d.heap = c.heap) (h4 : d.next = c.next) (h5 : d.nbytes = c.nbytes) : Inv d := by
  have he : d.entries = c.entries := by simp [Cache.entries, h1, h3]
  constructor
  · rw [h1]; exact hI.nodup
  · rw [h1, h2, h3]; exact hI.held
  · rw [h1, h2, h3]; exact hI.indexed
  · rw [h1, h4]; exact hI.fresh
  · rw [h5, he]; exact hI.bytes

theorem Inv.nbytes_eq {c : Cache} (hI : Inv c) : c.nbytes = toInt64 (total c.entries) :=
  hI.bytes

theorem Inv.entries_length {c : Cache} (hI : Inv c) : c.entries.length = c.ll.length := by
  have key : ∀ l : List Nat, (∀ a ∈ l, ∃ kv, c.heap a = some kv) →
      (l.filterMap c.heap).length = l.length := by
    intro l
    induction l with
    | nil => intro _; rfl
    | cons a l ih =>
      intro h
      obtain ⟨kv, hkv⟩ := h a (List.mem_cons_self a l)
      have := ih (fun b hb => h b (List.mem_cons_of_mem a hb))
      simp [List.filterMap_cons, hkv, this]
  exact key c.ll (fun a ha => (hI.held a ha).imp fun _ h => h.1)

/-- Simulation of `Get` by `promote` and `lookup` on the list of entries. -/
theorem Get_spec {c : Cache} (hI : Inv c) (k : String) :
    Inv (c.Get k).1 ∧ (c.Get k).1.entries = promote c.entries k ∧
      (c.Get k).2 = lookup c.entries k ∧ (c.Get k).1.maxBytes = c.maxBytes ∧
      (c.Get k).1.nbytes = c.nbytes ∧ (c.Get k).1.OnEvicted = c.OnEvicted ∧
      (c.Get k).1.evictions = c.evictions ∧ (c.Get k).1.ll.length = c.ll.length := by
  cases hk : c.cache k with
  | none =>
    have hf := find_filterMap_none (hI.absent hk)
    have hf2 : c.entries.find? (fun e => decide (e.key = k)) = none := hf
    simp [Cache.Get, hk, promote, lookup, hf2, hI]
  | some el =>
    obtain ⟨kv, hkv, hkey, hmem, hmv, hnot, hfind, hwo, htot⟩ := hI.locate hk
    have hI2 : Inv { c with ll := el :: c.ll.erase el } := by
      constructor
      · exact List.nodup_cons.2 ⟨hnot, hI.nodup.erase el⟩
      · intro a ha
        have : a ∈ c.ll := by
          rcases List.mem_cons.1 ha with h | h
          · rw [h]; exact hmem
          · exact List.mem_of_mem_erase h
        exact hI.held a this
      · intro k2 a hk2
        obtain ⟨h1, h2⟩ := hI.indexed k2 a hk2
        refine ⟨?_, h2⟩
        by_cases hae : a = el
        · rw [hae]; exact List.mem_cons_self _ _
        · exact List.mem_cons_of_mem _ ((List.mem_erase_of_ne hae).2 h1)
      · intro a ha
        have : a ∈ c.ll := by
          rcases List.mem_cons.1 ha with h | h
          · rw [h]; exact hmem
          · exact List.mem_of_mem_erase h
        exact hI.fresh a this
      · show c.nbytes = toInt64 (total (List.filterMap c.heap (el :: c.ll.erase el)))
        have : total (List.filterMap c.heap (el :: c.ll.erase el)) =
            kv.size + total (List.filterMap c.heap (c.ll.erase el)) := by
          simp [total, List.filterMap_cons, hkv]
        rw [hI.nbytes_eq, htot, this]
    have hget : c.Get k = ({ c with ll := el :: c.ll.erase el }, some kv.value) := by
      simp [Cache.Get, hk, hmv, hkv]
    rw [hget]
    refine ⟨hI2, ?_, ?_, rfl, rfl, rfl, rfl, ?_⟩
    rotate_left 2
    · show (el :: c.ll.erase el).length = c.ll.length
      rw [List.length_cons, List.length_erase_of_mem hmem]
      have := List.length_pos_of_mem hmem
      omega
    · simp only [promote, hfind, hwo]
      simp [Cache.entries, List.filterMap_cons, hkv]
    · simp [lookup, hfind]

theorem RemoveOldest_nil {c : Cache} (h : c.ll = []) : c.RemoveOldest = c := by
  simp [Cache.RemoveOldest, Back, h]

theorem RemoveOldest_concat {c : Cache} (hI : Inv c) {ys : List Nat} {el : Nat}
    (h : c.ll = ys ++ [el]) :
    ∃ kv, c.heap el = some kv ∧ c.entries = ys.filterMap c.heap ++ [kv] ∧
      c.RemoveOldest = removed c ys kv ∧ Inv (removed c ys kv) ∧
      (removed c ys kv).entries = ys.filterMap c.heap := by
  have hmem : el ∈ c.ll := by rw [h]; simp
  obtain ⟨kv, hkv, hck⟩ := hI.held el hmem
  have hnd := hI.nodup
  rw [h] at hnd
  have hnot : el ∉ ys := by
    intro hx
    have := (List.nodup_append.1 hnd).2.2
    exact this hx (List.mem_singleton_self el)
  have her : c.ll.erase el = ys := by
    rw [h, List.erase_append_right _ hnot]; simp
  have hsub : ∀ a ∈ ys, a ∈ c.ll ∧ a ≠ el := by
    intro a ha
    refine ⟨by rw [h]; exact List.mem_append_left _ ha, ?_⟩
    rintro rfl
    exact hnot ha
  have hent : c.entries = ys.filterMap c.heap ++ [kv] := by
    simp [Cache.entries, h, List.filterMap_append, hkv]
  refine ⟨kv, hkv, hent, ?_, ?_, rfl⟩
  · have hb : Back c.ll = some el := by simp [Back, h]
    cases ho : c.OnEvicted <;>
      simp [Cache.RemoveOldest, hb, Remove, her, hkv, removed, ho]
  · constructor
    · exact (List.nodup_append.1 hnd).1
    · intro a ha
      obtain ⟨hal, hne⟩ := hsub a ha
      obtain ⟨e, he1, he2⟩ := hI.held a hal
      refine ⟨e, he1, ?_⟩
      have := hI.key_ne hck hal hne he1
      simp [removed, assign, this, he2]
    · intro k2 a hk2
      have hk2ne : k2 ≠ kv.key := by
        intro hx
        simp [removed, assign, hx] at hk2
      have hk2c : c.cache k2 = some a := by
        simpa [removed, assign, hk2ne] using hk2
      obtain ⟨h1, e, he1, he2⟩ := hI.indexed k2 a hk2c
      have hael : a ≠ el := by
        rintro rfl
        rw [hkv] at he1
        cases he1
        exact hk2ne he2.symm
      refine ⟨?_, e, he1, he2⟩
      have : a ∈ ys ++ [el] := h ▸ h1
      rcases List.mem_append.1 this with hx | hx
      · exact hx
      · exact absurd (List.mem_singleton.1 hx) hael
    · intro a ha
      exact hI.fresh a (hsub a ha).1
    · show toInt64 (c.nbytes - toInt64 (len kv.key + kv.value.Len)) =
        toInt64 (total (ys.filterMap c.heap))
      have ht : total c.entries = total (ys.filterMap c.heap) + (len kv.key + kv.value.Len) := by
        rw [hent]
        simp [total, List.sum_append, entry.size]
      rw [hI.nbytes_eq, ht]
      unfold toInt64
      omega

/-- Simulation of `RemoveOldest` by `dropLast` on the list of entries. -/
theorem RemoveOldest_spec {c : Cache} (hI : Inv c) :
    Inv c.RemoveOldest ∧ c.RemoveOldest.entries = c.entries.dropLast ∧
      c.RemoveOldest.ll = c.ll.dropLast ∧
      c.RemoveOldest.maxBytes = c.maxBytes ∧ c.RemoveOldest.OnEvicted = c.OnEvicted := by
  rcases List.eq_nil_or_concat c.ll with h | ⟨ys, el, h⟩
  · rw [RemoveOldest_nil h]
    simp [hI, Cache.entries, h]
  · have h2 : c.ll = ys ++ [el] := by simpa using h
    obtain ⟨kv, _, hent, heq, hI2, hent2⟩ := RemoveOldest_concat hI h2
    rw [heq, hent2, hent, h2]
    refine ⟨hI2, by simp, by simp [removed], rfl, rfl⟩

/-- Simulation of the two branches of `Add`: the entry goes to the front and
replaces any entry of the same key. -/
theorem insert_spec {c : Cache} (hI : Inv c) (k : String) (v : Value) :
    Inv (c.insert k v) ∧ (c.insert k v).entries = ⟨k, v⟩ :: without c.entries k ∧
      (c.insert k v).maxBytes = c.maxBytes ∧ (c.insert k v).OnEvicted = c.OnEvicted ∧
      (c.insert k v).evictions = c.evictions := by
  cases hk : c.cache k with
  | none =>
    have hfr : ∀ a ∈ c.ll, a ≠ c.next := fun a ha => Nat.ne_of_lt (hI.fresh a ha)
    have hins : c.insert k v =
        { c with heap := assign c.heap c.next (some ⟨k, v⟩), next := c.next + 1,
                 ll := c.next :: c.ll, cache := assign c.cache k (some c.next),
                 nbytes := toInt64 (c.nbytes + toInt64 (len k + v.Len)) } := by
      simp [Cache.insert, hk]
    have hF : c.ll.filterMap (assign c.heap c.next (some ⟨k, v⟩)) = c.entries :=
      filterMap_agree (fun a ha => by simp [assign, hfr a ha])
    have hent : (c.insert k v).entries = ⟨k, v⟩ :: c.entries := by
      rw [hins]
      show List.filterMap (assign c.heap c.next (some ⟨k, v⟩)) (c.next :: c.ll) = _
      rw [List.filterMap_cons, hF]
      simp [assign]
    refine ⟨?_, ?_, by rw [hins], by rw [hins], by rw [hins]⟩
    · constructor
      · rw [hins]
        exact List.nodup_cons.2 ⟨fun hx => hfr _ hx rfl, hI.nodup⟩
      · rw [hins]
        intro a ha
        rcases List.mem_cons.1 ha with h | h
        · exact ⟨⟨k, v⟩, by simp [assign, h], by simp [assign, h]⟩
        · obtain ⟨e, he1, he2⟩ := hI.held a h
          have hne := hI.absent hk a h e he1
          exact ⟨e, by simp [assign, hfr a h, he1], by simp [assign, hne, he2]⟩
      · rw [hins]
        intro k2 a hk2
        by_cases hkk : k2 = k
        · have : a = c.next := by
            have := hk2
            simp [assign, hkk] at this
            exact this.symm
          exact ⟨by simp [this], ⟨k, v⟩, by simp [assign, this], hkk.symm⟩
        · have hc : c.cache k2 = some a := by simpa [assign, hkk] using hk2
          obtain ⟨h1, e, he1, he2⟩ := hI.indexed k2 a hc
          exact ⟨List.mem_cons_of_mem _ h1, e, by simp [assign, hfr a h1, he1], he2⟩
      · rw [hins]
        intro a ha
        rcases List.mem_cons.1 ha with h | h
        · rw [h]; exact Nat.lt_succ_self _
        · exact Nat.lt_succ_of_lt (hI.fresh a h)
      · rw [hent, hins]
        show toInt64 (c.nbytes + toInt64 (len k + v.Len)) = toInt64 (total (⟨k, v⟩ :: c.entries))
        have ht : total (⟨k, v⟩ :: c.entries) = (len k + v.Len) + total c.entries := by
          simp [total, entry.size]
        rw [hI.nbytes_eq, ht]
        unfold toInt64
        omega
    · rw [hent]
      have := without_filterMap (hI.absent hk)
      exact congrArg _ this.symm
  | some el =>
    obtain ⟨kv, hkv, hkey, hmem, hmv, hnot, hfind, hwo, htot⟩ := hI.locate hk
    have hins : c.insert k v =
        { c with ll := el :: c.ll.erase el,
                 nbytes := toInt64 (c.nbytes + toInt64 (v.Len - kv.value.Len)),
                 heap := assign c.heap el (some ⟨kv.key, v⟩) } := by
      simp [Cache.insert, hk, hmv, hkv]
    have hne : ∀ a ∈ c.ll.erase el, a ≠ el := by
      rintro a ha rfl
      exact hnot ha
    have hF : (c.ll.erase el).filterMap (assign c.heap el (some ⟨kv.key, v⟩)) =
        (c.ll.erase el).filterMap c.heap :=
      filterMap_agree (fun a ha => by simp [assign, hne a ha])
    have hent : (c.insert k v).entries = ⟨k, v⟩ :: without c.entries k := by
      rw [hins, hwo]
      show List.filterMap (assign c.heap el (some ⟨kv.key, v⟩)) (el :: c.ll.erase el) = _
      rw [List.filterMap_cons, hF]
      simp [assign, hkey]
    refine ⟨?_, hent, by rw [hins], by rw [hins], by rw [hins]⟩
    constructor
    · rw [hins]
      exact List.nodup_cons.2 ⟨hnot, hI.nodup.erase el⟩
    · rw [hins]
      intro a ha
      rcases List.mem_cons.1 ha with h | h
      · exact ⟨⟨kv.key, v⟩, by simp [assign, h], by simp [h, hkey, hk]⟩
      · obtain ⟨e, he1, he2⟩ := hI.held a (List.mem_of_mem_erase h)
        exact ⟨e, by simp [assign, hne a h, he1], he2⟩
    · rw [hins]
      intro k2 a hk2
      obtain ⟨h1, e, he1, he2⟩ := hI.indexed k2 a hk2
      by_cases hae : a = el
      · refine ⟨by simp [hae], ⟨kv.key, v⟩, by simp [assign, hae], ?_⟩
        rw [hae, hkv] at he1
        cases he1
        exact he2
      · exact ⟨List.mem_cons_of_mem _ ((List.mem_erase_of_ne hae).2 h1), e,
          by simp [assign, hae, he1], he2⟩
    · rw [hins]
      intro a ha
      rcases List.mem_cons.1 ha with h | h
      · rw [h]; exact hI.fresh el hmem
      · exact hI.fresh a (List.mem_of_mem_erase h)
    · rw [hent, hins]
      show toInt64 (c.nbytes + toInt64 (v.Len - kv.value.Len)) =
        toInt64 (total (⟨k, v⟩ :: without c.entries k))
      have ht : total (⟨k, v⟩ :: without c.entries k) =
          (len k + v.Len) + total (List.filterMap c.heap (c.ll.erase el)) := by
        rw [hwo]
        simp [total, entry.size]
      have hs : kv.size = len k + kv.value.Len := by rw [entry.size, hkey]
      rw [hI.nbytes_eq, htot, ht, hs]
      unfold toInt64
      omega

/-- What the eviction loop returns, when it returns: the longest prefix of
the entries that is not over the limit. -/
theorem evictLoop_spec (fuel : Nat) : ∀ {c d : Cache}, Inv c → evictLoop fuel c = some d →
    Inv d ∧ d.maxBytes = c.maxBytes ∧ d.OnEvicted = c.OnEvicted ∧ ¬ d.over ∧
      ∃ n, n ≤ c.entries.length ∧ d.entries = c.entries.take n ∧
        ∀ m, n < m → m ≤ c.entries.length →
          c.maxBytes ≠ 0 ∧ c.maxBytes < toInt64 (total (c.entries.take m)) := by
  induction fuel with
  | zero => intro c d _ h; simp [evictLoop] at h
  | succ fuel ih =>
    intro c d hI h
    by_cases ho : c.maxBytes ≠ 0 ∧ c.maxBytes < c.nbytes
    · rw [evictLoop, if_pos ho] at h
      obtain ⟨hI2, hent, _, hmax, hcb⟩ := RemoveOldest_spec hI
      obtain ⟨hId, hm, hc, hov, n, hn, hd, hall⟩ := ih hI2 h
      rw [hent] at hn hd hall
      rw [hmax] at hm hall
      rw [hcb] at hc
      have hlen : c.entries.dropLast.length = c.entries.length - 1 := List.length_dropLast _
      have htake : ∀ m, m ≤ c.entries.length - 1 →
          c.entries.dropLast.take m = c.entries.take m := by
        intro m hm
        rw [List.dropLast_eq_take, List.take_take, Nat.min_eq_left hm]
      refine ⟨hId, hm, hc, hov, n, by omega, by rw [hd, htake n (by omega)], ?_⟩
      intro m hnm hml
      by_cases hlast : m ≤ c.entries.length - 1
      · have := hall m hnm (by omega)
        rwa [htake m hlast] at this
      · have hmeq : m = c.entries.length := by omega
        rw [hmeq, List.take_length, ← hI.nbytes_eq]
        exact ho
    · rw [evictLoop, if_neg ho] at h
      cases h
      exact ⟨hI, rfl, rfl, ho, c.entries.length, le_refl _, (List.take_length _).symm,
        fun m h1 h2 => absurd h2 (by omega)⟩

/-- The eviction loop returns when the limit is not negative. -/
theorem evictLoop_total (fuel : Nat) : ∀ {c : Cache}, Inv c → 0 ≤ c.maxBytes →
    c.ll.length < fuel → ∃ d, evictLoop fuel c = some d := by
  induction fuel with
  | zero => intro c _ _ h; omega
  | succ fuel ih =>
    intro c hI h0 hf
    by_cases ho : c.maxBytes ≠ 0 ∧ c.maxBytes < c.nbytes
    · rw [evictLoop, if_pos ho]
      obtain ⟨hI2, _, hll, hmax, _⟩ := RemoveOldest_spec hI
      have hne : c.ll ≠ [] := by
        intro hnil
        have : c.nbytes = 0 := by
          rw [hI.nbytes_eq]; simp [Cache.entries, hnil, total, toInt64_zero]
        omega
      have hpos : 0 < c.ll.length := List.length_pos.2 hne
      apply ih hI2 (by rw [hmax]; exact h0)
      rw [hll, List.length_dropLast]
      omega
    · rw [evictLoop, if_neg ho]
      exact ⟨c, rfl⟩

theorem without_length_le (es : List entry) (k : String) :
    (without es k).length ≤ es.length := List.length_filter_le _ _

/-- Specification of `Add` on the list of entries. -/
theorem Add_spec {c d : Cache} (hI : Inv c) {fuel : Nat} {k : String} {v : Value}
    (h : c.Add fuel k v = some d) :
    Inv d ∧ d.maxBytes = c.maxBytes ∧ d.OnEvicted = c.OnEvicted ∧ ¬ d.over ∧
      ∃ n, n ≤ (without c.entries k).length + 1 ∧
        d.entries = (⟨k, v⟩ :: without c.entries k).take n ∧
        ∀ m, n < m → m ≤ (without c.entries k).length + 1 →
          c.maxBytes ≠ 0 ∧
            c.maxBytes < toInt64 (total ((⟨k, v⟩ :: without c.entries k).take m)) := by
  obtain ⟨hI1, hent, hmax, hcb, _⟩ := insert_spec hI k v
  obtain ⟨hId, hm, hc, hov, n, hn, hd, hall⟩ := evictLoop_spec fuel hI1 h
  rw [hent] at hn hd hall
  rw [hmax] at hm hall
  rw [hcb] at hc
  exact ⟨hId, hm, hc, hov, n, by simpa using hn, hd, fun m h1 h2 => hall m h1 (by simpa using h2)⟩

/-- Method `Add` returns when the limit is not negative. -/
theorem Add_total {c : Cache} (hI : Inv c) (h0 : 0 ≤ c.maxBytes) {fuel : Nat}
    (hf : c.ll.length + 1 < fuel) (k : String) (v : Value) :
    ∃ d, c.Add fuel k v = some d := by
  obtain ⟨hI1, hent, hmax, _, _⟩ := insert_spec hI k v
  apply evictLoop_total fuel hI1 (by rw [hmax]; exact h0)
  rw [← hI1.entries_length, hent]
  have := without_length_le c.entries k
  have h2 := hI.entries_length
  simp only [List.length_cons]
  omega

theorem ReachableWith.toInv {P : String → Value → Prop} {c : Cache} (h : ReachableWith P c) : Inv c := by
  induction h with
  | new maxBytes onEvicted => exact Inv_NewCache _ _
  | add fuel key value _ _ hadd ih => exact (Add_spec ih hadd).1
  | get key _ ih => exact (Get_spec ih key).1
  | removeOldest _ ih => exact (RemoveOldest_spec ih).1

theorem Reachable.holds {c : Cache} (h : Reachable c) : Inv c := ReachableWith.toInv h

theorem len_nonneg (k : String) : 0 ≤ len k := by
  unfold len; exact Int.ofNat_nonneg _

theorem total_nil : total [] = 0 := rfl

theorem total_cons (e : entry) (es : List entry) : total (e :: es) = e.size + total es := by
  simp [total]

theorem total_append (es fs : List entry) : total (es ++ fs) = total es + total fs := by
  simp [total, List.sum_append]

theorem NonNeg.total_nonneg {es : List entry} (h : NonNeg es) : 0 ≤ total es := by
  induction es with
  | nil => simp [total]
  | cons e es ih =>
    rw [total_cons]
    have h1 := h e (List.mem_cons_self e es)
    have h2 := ih (fun x hx => h x (List.mem_cons_of_mem e hx))
    have h3 := len_nonneg e.key
    unfold entry.size
    omega

theorem NonNeg.sub {es fs : List entry} (h : NonNeg es) (hs : ∀ e ∈ fs, e ∈ es) : NonNeg fs :=
  fun e he => h e (hs e he)

theorem mem_without {es : List entry} {k : String} {e : entry} (h : e ∈ without es k) :
    e ∈ es ∧ e.key ≠ k := by
  unfold without at h
  have := List.mem_filter.1 h
  exact ⟨this.1, by simpa using this.2⟩

theorem mem_promote {es : List entry} {k : String} {e : entry} (h : e ∈ promote es k) :
    e ∈ es := by
  unfold promote at h
  split at h
  · next x hx =>
    rcases List.mem_cons.1 h with h1 | h1
    · rw [h1]; exact List.mem_of_find?_eq_some hx
    · exact (mem_without h1).1
  · exact h

theorem lookup_cons_self (k : String) (v : Value) (es : List entry) :
    lookup (⟨k, v⟩ :: es) k = some v := by
  simp [lookup, List.find?_cons]

theorem lookup_some {es : List entry} {k : String} {v : Value} (h : lookup es k = some v) :
    es.find? (fun e => decide (e.key = k)) = some ⟨k, v⟩ := by
  unfold lookup at h
  cases hf : es.find? (fun e => decide (e.key = k)) with
  | none => rw [hf] at h; cases h
  | some e =>
    rw [hf] at h
    have hk : e.key = k := by simpa using List.find?_some hf
    have hv : e.value = v := by simpa using h
    cases e
    simp at hk hv
    rw [hk, hv]

theorem promote_of_lookup {es : List entry} {k : String} {v : Value}
    (h : lookup es k = some v) : promote es k = ⟨k, v⟩ :: without es k := by
  simp [promote, lookup_some h]

theorem Reachable.added {c : Cache} (h : Reachable c) (h0 : 0 ≤ c.maxBytes) (k : String)
    (v : Value) : Reachable (c.added k v) ∧ c.Add (c.ll.length + 2) k v = some (c.added k v) := by
  obtain ⟨d, hd⟩ := Add_total h.holds h0 (Nat.lt_succ_self _) k v
  have : c.added k v = d := by simp [Cache.added, hd]
  rw [this]
  exact ⟨ReachableWith.add _ k v h trivial hd, hd⟩

theorem Reachable.maxBytes_added {c : Cache} (h : Reachable c) (h0 : 0 ≤ c.maxBytes)
    (k : String) (v : Value) : (c.added k v).maxBytes = c.maxBytes :=
  (Add_spec h.holds (h.added h0 k v).2).2.1

theorem reachable_demo2 : Reachable demo2 := by
  have h0 : Reachable (NewCache 8 true) := ReachableWith.new 8 true
  have h1 := (h0.added (by decide) "k1" ⟨1, 2⟩).1
  have m1 := h0.maxBytes_added (by decide) "k1" ⟨1, 2⟩
  exact (h1.added (by rw [m1]; decide) "k2" ⟨2, 2⟩).1

theorem reachable_demo3 : Reachable demo3 := by
  have h2 := reachable_demo2
  have m2 : demo2.maxBytes = 8 := by decide
  exact (h2.added (by rw [m2]; decide) "k3" ⟨3, 2⟩).1

theorem ReachableWith.maxBytes_range {P : String → Value → Prop} {c : Cache}
    (h : ReachableWith P c) :
    -9223372036854775808 ≤ c.maxBytes ∧ c.maxBytes ≤ 9223372036854775807 := by
  induction h with
  | new maxBytes onEvicted => exact toInt64_range _
  | add fuel key value hc _ hadd ih => rw [(Add_spec hc.toInv hadd).2.1]; exact ih
  | get key hc ih => rw [(Get_spec hc.toInv key).2.2.2.1]; exact ih
  | removeOldest hc ih => rw [(RemoveOldest_spec hc.toInv).2.2.2.1]; exact ih

theorem reachable_brim : Reachable brim := by
  have h0 : Reachable (NewCache 9223372036854775807 false) := ReachableWith.new _ false
  have h1 := (h0.added (by decide) "a" ⟨1, 9223372036854775806⟩).1
  have m1 := h0.maxBytes_added (by decide) "a" ⟨1, 9223372036854775806⟩
  exact (h1.added (by rw [m1]; decide) "b" ⟨2, 5⟩).1

/-- C1, counterexample. On a cache of capacity `2^63 - 1`, after `Add("a", v)`
with `v.Len() = 2^63 - 2` and `Add("b", w)` with `w.Len() = 5` both entries
are held, the sum of `len(key) + value.Len()` over them is `2^63 + 5`, and
`nbytes` is `-2^63 + 5`. -/
theorem C1_byte_accounting_counterexample :
    Reachable brim ∧ brim.keys = ["b", "a"] ∧
      (brim.entries.map (fun kv => len kv.key + kv.value.Len)).sum = 9223372036854775813 ∧
      brim.nbytes = -9223372036854775803 ∧
      brim.nbytes ≠ (brim.entries.map (fun kv => len kv.key + kv.value.Len)).sum :=
  ⟨reachable_brim, by decide, by decide, by decide, by decide⟩

/-- C1, amended. In every state reached from `NewCache` by calls of `Add`,
`Get` and `RemoveOldest`, `nbytes` is the sum of `len(key) + value.Len()` over
the entries held in the recency list reduced to `int64` (modulo `2^64`); it
is that sum itself whenever the sum lies in the range of `int64`; and every
element of the list carries one entry. -/
theorem C1_byte_accounting_int64 (c : Cache) (h : Reachable c) :
    c.nbytes = toInt64 (c.entries.map (fun kv => len kv.key + kv.value.Len)).sum ∧
      (-9223372036854775808 ≤ (c.entries.map (fun kv => len kv.key + kv.value.Len)).sum →
        (c.entries.map (fun kv => len kv.key + kv.value.Len)).sum ≤ 9223372036854775807 →
        c.nbytes = (c.entries.map (fun kv => len kv.key + kv.value.Len)).sum) ∧
      c.entries.length = c.ll.length := by
  have hb : c.nbytes = toInt64 (c.entries.map (fun kv => len kv.key + kv.value.Len)).sum :=
    h.holds.bytes
  exact ⟨hb, fun h1 h2 => by rw [hb, toInt64_of_range h1 h2], h.holds.entries_length⟩

theorem C1_byte_accounting_int64_witness :
    Reachable demo3 ∧
      demo3.nbytes = toInt64 (demo3.entries.map (fun kv => len kv.key + kv.value.Len)).sum ∧
      demo3.nbytes = (demo3.entries.map (fun kv => len kv.key + kv.value.Len)).sum ∧
      demo3.entries.length = demo3.ll.length :=
  let r := C1_byte_accounting_int64 demo3 reachable_demo3
  ⟨reachable_demo3, r.1, r.2.1 (by decide) (by decide), r.2.2⟩

theorem reachable_skew : Reachable skew := by
  have h0 : Reachable (NewCache 6 false) := ReachableWith.new 6 false
  have h1 := (h0.added (by decide) "" ⟨0, -5⟩).1
  have m1 := h0.maxBytes_added (by decide) "" ⟨0, -5⟩
  exact (h1.added (by rw [m1]; decide) "b" ⟨1, 9⟩).1

theorem reachable_flood : Reachable flood := by
  have h0 : Reachable (NewCache 8 false) := ReachableWith.new 8 false
  have h1 := (h0.added (by decide) "a" ⟨0, 9223372036854775807⟩).1
  have m1 := h0.maxBytes_added (by decide) "a" ⟨0, 9223372036854775807⟩
  exact (h1.added (by rw [m1]; decide) "b" ⟨1, 100⟩).1

/-- C2, counterexample.  With capacity 6, `Add("", v)` for a value reporting
`Len() = -5`, then `Add("b", w)` with `w.Len() = 9`, then `RemoveOldest()`
leaves `nbytes = 10`, above the capacity.  With capacity 8 and sizes that
are not negative, `Add("a", v)` with `v.Len() = 2^63 - 1`, then
`Add("b", w)` with `w.Len() = 100`, then `RemoveOldest()` leaves
`nbytes = 101`. -/
theorem C2_capacity_counterexample :
    (Reachable skew.RemoveOldest ∧ skew.RemoveOldest.maxBytes = 6 ∧
      skew.RemoveOldest.nbytes = 10 ∧ 0 < skew.RemoveOldest.maxBytes ∧
      ¬ skew.RemoveOldest.nbytes ≤ skew.RemoveOldest.maxBytes) ∧
    (Reachable flood.RemoveOldest ∧ NonNeg flood.entries ∧ flood.RemoveOldest.maxBytes = 8 ∧
      flood.RemoveOldest.nbytes = 101 ∧ 0 < flood.RemoveOldest.maxBytes ∧
      ¬ flood.RemoveOldest.nbytes ≤ flood.RemoveOldest.maxBytes) :=
  ⟨⟨ReachableWith.removeOldest reachable_skew, by decide, by decide, by decide, by decide⟩,
    ⟨ReachableWith.removeOldest reachable_flood, by decide, by decide, by decide, by decide,
      by decide⟩⟩

theorem ReachableWith.weaken {P : String → Value → Prop} {c : Cache}
    (h : ReachableWith P c) : Reachable c := by
  induction h with
  | new maxBytes onEvicted => exact ReachableWith.new _ _
  | add fuel key value _ _ hadd ih => exact ReachableWith.add fuel key value ih trivial hadd
  | get key _ ih => exact ReachableWith.get key ih
  | removeOldest _ ih => exact ReachableWith.removeOldest ih

theorem NonNeg.total_sublist {es fs : List entry} (h : NonNeg es) (hs : fs.Sublist es) :
    total fs ≤ total es := by
  induction hs with
  | slnil => exact le_refl _
  | @cons l1 l2 a _ ih =>
    rw [total_cons]
    have h1 := h a (List.mem_cons_self a l2)
    have h2 := ih (fun x hx => h x (List.mem_cons_of_mem a hx))
    have h3 := len_nonneg a.key
    unfold entry.size
    omega
  | @cons₂ l1 l2 a _ ih =>
    rw [total_cons, total_cons]
    have h2 := ih (fun x hx => h x (List.mem_cons_of_mem a hx))
    omega

theorem Get_entries_perm (c : Cache) (k : String) : (c.Get k).1.entries.Perm c.entries := by
  unfold Cache.Get
  cases hk : c.cache k with
  | none => exact List.Perm.refl _
  | some el =>
    have hp : (MoveToFront c.ll el).Perm c.ll := by
      unfold MoveToFront
      split
      · next h => exact (List.perm_cons_erase h).symm
      · exact List.Perm.refl _
    cases hh : c.heap el <;> simpa [hh, Cache.entries] using hp.filterMap c.heap

theorem total_perm {es fs : List entry} (h : es.Perm fs) : total es = total fs :=
  (h.map entry.size).sum_eq

/-- Within the limit: sizes not negative and the exact sum of the sizes at
most the capacity. -/
theorem fits_bound (cap : Int) {c : Cache} (h : ReachableWith (Fits cap) c) :
    NonNeg c.entries ∧ (c.maxBytes = cap → 0 < cap → total c.entries ≤ cap) := by
  induction h with
  | new maxBytes onEvicted =>
    refine ⟨by simp [NonNeg, NewCache, Cache.entries], fun _ h0 => ?_⟩
    show total [] ≤ cap
    rw [total_nil]
    omega
  | @add c d fuel key value hc hv hadd ih =>
    obtain ⟨hId, hm, _, hov, n, _, hd, _⟩ := Add_spec hc.toInv hadd
    have hnn : NonNeg (⟨key, value⟩ :: without c.entries key) := by
      intro e he
      rcases List.mem_cons.1 he with h1 | h1
      · rw [h1]; exact hv.1
      · exact ih.1 e (mem_without h1).1
    have hnd : NonNeg d.entries := by
      rw [hd]; exact hnn.sub (fun e he => List.mem_of_mem_take he)
    refine ⟨hnd, fun hcap h0 => ?_⟩
    have hcm : c.maxBytes = cap := hm ▸ hcap
    have hold := ih.2 hcm h0
    have h1 : total (without c.entries key) ≤ total c.entries :=
      ih.1.total_sublist (List.filter_sublist _)
    have h2 : total d.entries ≤ total (⟨key, value⟩ :: without c.entries key) := by
      rw [hd]; exact hnn.total_sublist (List.take_sublist _ _)
    have h3 := hnd.total_nonneg
    have h4 := hv.2
    simp only [total_cons, entry.size] at h2
    unfold maxInt64 at h4
    have hin : toInt64 (total d.entries) = total d.entries :=
      toInt64_of_range (by omega) (by omega)
    unfold Cache.over at hov
    rw [hId.nbytes_eq, hin, hcap] at hov
    by_contra hlt
    exact hov ⟨by omega, by omega⟩
  | @get c key hc ih =>
    obtain ⟨_, hent, _, hm, _⟩ := Get_spec hc.toInv key
    rw [hm, total_perm (Get_entries_perm c key)]
    refine ⟨?_, ih.2⟩
    rw [hent]
    exact ih.1.sub (fun e he => mem_promote he)
  | @removeOldest c hc ih =>
    obtain ⟨_, hent, _, hm, _⟩ := RemoveOldest_spec hc.toInv
    rw [hent, hm]
    refine ⟨ih.1.sub (fun e he => List.mem_of_mem_dropLast he), fun hcap h0 => ?_⟩
    have := ih.1.total_sublist (List.dropLast_sublist c.entries)
    have := ih.2 hcap h0
    omega

/-- C2, amended. For a cache created with `maxBytes > 0`: after every call of
a sequence of `Add`, `Get` and `RemoveOldest` in which every added value has
`Len() >= 0` and `maxBytes + len(key) + Len()` does not exceed the largest
`int64`, `nbytes <= maxBytes`; and for keys and values of any size, a call of
`Add` in a reachable state returns and leaves `nbytes <= maxBytes`. -/
theorem C2_capacity_invariant (c : Cache) (h0 : 0 < c.maxBytes) :
    (ReachableWith (Fits c.maxBytes) c → c.nbytes ≤ c.maxBytes) ∧
      (Reachable c → ∀ (k : String) (v : Value) (fuel : Nat), c.ll.length + 1 < fuel →
        ∃ d, c.Add fuel k v = some d ∧ d.maxBytes = c.maxBytes ∧ d.nbytes ≤ d.maxBytes) := by
  refine ⟨fun h => ?_, fun h k v fuel hf => ?_⟩
  · obtain ⟨hnn, hb⟩ := fits_bound c.maxBytes h
    have h1 := hb rfl h0
    have h2 := hnn.total_nonneg
    have h3 := h.maxBytes_range
    rw [h.toInv.nbytes_eq, toInt64_of_range (by omega) (by omega)]
    exact h1
  · obtain ⟨d, hd⟩ := Add_total h.holds (le_of_lt h0) hf k v
    obtain ⟨_, hm, _, hov, _⟩ := Add_spec h.holds hd
    refine ⟨d, hd, hm, ?_⟩
    unfold Cache.over at hov
    by_contra hlt
    exact hov ⟨by omega, by omega⟩

theorem C2_capacity_invariant_witness :
    0 < demo3.maxBytes ∧
      ((ReachableWith (Fits demo3.maxBytes) demo3 → demo3.nbytes ≤ demo3.maxBytes) ∧
        (Reachable demo3 → ∀ (k : String) (v : Value) (fuel : Nat),
          demo3.ll.length + 1 < fuel →
            ∃ d, demo3.Add fuel k v = some d ∧ d.maxBytes = demo3.maxBytes ∧
              d.nbytes ≤ d.maxBytes)) :=
  ⟨by decide, C2_capacity_invariant demo3 (by decide)⟩

/-- The entries after `Add` are the prefix of length `n0` of the list with the
new entry in front, when that prefix fits and no longer one does. -/
theorem Add_entries_of {c d : Cache} (hI : Inv c) {fuel : Nat} {k : String} {v : Value}
    (h : c.Add fuel k v = some d) (n0 : Nat) (hn0 : n0 ≤ (without c.entries k).length + 1)
    (hfit : c.maxBytes = 0 ∨
      toInt64 (total ((⟨k, v⟩ :: without c.entries k).take n0)) ≤ c.maxBytes)
    (hover : ∀ m, n0 < m → m ≤ (without c.entries k).length + 1 →
      c.maxBytes ≠ 0 ∧ c.maxBytes < toInt64 (total ((⟨k, v⟩ :: without c.entries k).take m))) :
    d.entries = (⟨k, v⟩ :: without c.entries k).take n0 := by
  obtain ⟨hId, hm, _, hov, n, hn, hd, hall⟩ := Add_spec hI h
  rcases Nat.lt_trichotomy n n0 with hlt | heq | hgt
  · have := hall n0 hlt hn0
    rcases hfit with h0 | h0
    · exact absurd h0 this.1
    · omega
  · rw [hd, heq]
  · have := hover n hgt hn
    exfalso
    apply hov
    unfold Cache.over
    rw [hm, hId.nbytes_eq, hd]
    exact this

/-- C4. Add-then-Get round trip: in a reachable state, when `maxBytes = 0`, or
`maxBytes > 0` and `len(k) + v.Len() <= maxBytes`, the call `Add(k, v)` returns
and an immediately following `Get(k)` returns `(v, true)`, whether or not `k`
was held before. -/
theorem C4_add_then_get (c : Cache) (h : Reachable c) (k : String) (v : Value)
    (hfit : c.maxBytes = 0 ∨ (0 < c.maxBytes ∧ len k + v.Len ≤ c.maxBytes))
    (fuel : Nat) (hf : c.ll.length + 1 < fuel) :
    ∃ d, c.Add fuel k v = some d ∧ (d.Get k).2 = some v := by
  have h0 : 0 ≤ c.maxBytes := by omega
  obtain ⟨d, hd⟩ := Add_total h.holds h0 hf k v
  obtain ⟨hId, _, _, _, n, _, hent, hall⟩ := Add_spec h.holds hd
  refine ⟨d, hd, ?_⟩
  have hn : n ≠ 0 := by
    intro hz
    have := hall 1 (by omega) (by omega)
    have ht : total ((⟨k, v⟩ :: without c.entries k).take 1) = len k + v.Len := by
      simp [total, entry.size]
    have hr := ReachableWith.maxBytes_range h
    have hl := len_nonneg k
    have hv := v.Len_range
    rw [ht] at this
    rcases hfit with hz0 | ⟨_, hle⟩
    · exact this.1 hz0
    · rw [toInt64_of_range (by omega) (by omega)] at this
      omega
  obtain ⟨m, rfl⟩ := Nat.exists_eq_succ_of_ne_zero hn
  rw [(Get_spec hId k).2.2.1, hent, List.take_succ_cons]
  exact lookup_cons_self k v _

theorem C4_add_then_get_witness :
    Reachable demo2 ∧ (demo2.maxBytes = 0 ∨
        (0 < demo2.maxBytes ∧ len "k3" + (⟨3, 2⟩ : Value).Len ≤ demo2.maxBytes)) ∧
      demo2.ll.length + 1 < 4 ∧
      ∃ d, demo2.Add 4 "k3" ⟨3, 2⟩ = some d ∧ (d.Get "k3").2 = some ⟨3, 2⟩ :=
  ⟨reachable_demo2, by decide, by decide,
    C4_add_then_get demo2 reachable_demo2 "k3" ⟨3, 2⟩ (by decide) 4 (by decide)⟩

theorem reachable_new (maxBytes : Int) (cb : Bool) : Reachable (NewCache maxBytes cb) :=
  ReachableWith.new maxBytes cb

/-- C9, counterexample. On an empty cache of capacity 8, `Add("a", v)` with
`v.Len() = 2^63 - 1` has `len(k) + v.Len() = 2^63 > 8`, yet the call returns
with the entry held: `Len() = 1`, `nbytes = -2^63` and `Get("a")` finds `v`. -/
theorem C9_oversized_insert_counterexample :
    Reachable (NewCache 8 false) ∧ 0 < (NewCache 8 false).maxBytes ∧
      NonNeg (NewCache 8 false).entries ∧ 0 ≤ (⟨0, 9223372036854775807⟩ : Value).Len ∧
      (NewCache 8 false).maxBytes < len "a" + (⟨0, 9223372036854775807⟩ : Value).Len ∧
      (NewCache 8 false).Add 2 "a" ⟨0, 9223372036854775807⟩ = some glut ∧
      glut.Len = 1 ∧ glut.nbytes = -9223372036854775808 ∧
      (glut.Get "a").2 = some ⟨0, 9223372036854775807⟩ :=
  ⟨reachable_new 8 false, by decide, by decide, by decide, by decide,
    ((reachable_new 8 false).added (by decide) "a" ⟨0, 9223372036854775807⟩).2,
    by decide, by decide, by decide⟩

/-- C9, amended. Oversized insert empties the cache: in a reachable state
with `maxBytes > 0` whose held values report non-negative sizes, `Add(k, v)`
with `len(k) + v.Len() > maxBytes`, where `len(k) + v.Len()` plus the sizes
of the other held entries does not exceed the largest `int64`, returns, and
afterwards `Len() = 0`, `nbytes = 0` and `Get(k)` finds nothing. -/
theorem C9_oversized_insert_empties (c : Cache) (h : Reachable c) (hcap : 0 < c.maxBytes)
    (hnn : NonNeg c.entries) (k : String) (v : Value) (hbig : c.maxBytes < len k + v.Len)
    (hsum : total (⟨k, v⟩ :: without c.entries k) ≤ maxInt64)
    (fuel : Nat) (hf : c.ll.length + 1 < fuel) :
    ∃ d, c.Add fuel k v = some d ∧ d.Len = 0 ∧ d.nbytes = 0 ∧ (d.Get k).2 = none := by
  obtain ⟨d, hd⟩ := Add_total h.holds (le_of_lt hcap) hf k v
  refine ⟨d, hd, ?_⟩
  have hI := (Add_spec h.holds hd).1
  have hwn : NonNeg (without c.entries k) := hnn.sub (fun e he => (mem_without he).1)
  have hent : d.entries = [] := by
    have := Add_entries_of h.holds hd 0 (Nat.zero_le _)
      (Or.inr (by simpa [total, toInt64_zero] using le_of_lt hcap))
      (fun m hm _ => by
        obtain ⟨j, rfl⟩ := Nat.exists_eq_succ_of_ne_zero (Nat.ne_of_gt hm)
        rw [List.take_succ_cons, total_cons]
        have hw : NonNeg ((without c.entries k).take j) :=
          hwn.sub (fun e he => List.mem_of_mem_take he)
        have h1 := hw.total_nonneg
        have h2 := hwn.total_sublist (List.take_sublist j (without c.entries k))
        have h3 := hsum
        rw [total_cons] at h3
        simp only [entry.size, maxInt64] at h3 ⊢
        rw [toInt64_of_range (by omega) (by omega)]
        exact ⟨by omega, by omega⟩)
    simpa using this
  refine ⟨?_, ?_, ?_⟩
  · have := hI.entries_length
    rw [hent] at this
    simp [Cache.Len, ← this]
  · rw [hI.nbytes_eq, hent]; exact toInt64_zero
  · rw [(Get_spec hI k).2.2.1, hent]; rfl

theorem nonNeg_demo2 : NonNeg demo2.entries := by decide

theorem C9_oversized_insert_empties_witness :
    Reachable demo2 ∧ 0 < demo2.maxBytes ∧ NonNeg demo2.entries ∧
      demo2.maxBytes < len "big" + (⟨9, 6⟩ : Value).Len ∧
      total (⟨"big", ⟨9, 6⟩⟩ :: without demo2.entries "big") ≤ maxInt64 ∧
      demo2.ll.length + 1 < 4 ∧
      ∃ d, demo2.Add 4 "big" ⟨9, 6⟩ = some d ∧ d.Len = 0 ∧ d.nbytes = 0 ∧
        (d.Get "big").2 = none :=
  ⟨reachable_demo2, by decide, nonNeg_demo2, by decide, by decide, by decide,
    C9_oversized_insert_empties demo2 reachable_demo2 (by decide) nonNeg_demo2 "big" ⟨9, 6⟩
      (by decide) (by decide) 4 (by decide)⟩

/-- One call of `Add` on a state whose entries are `es`: it returns, and
leaves the prefix of length `n0` described in `Add_entries_of`. -/
theorem Add_step {c : Cache} (hI : Inv c) (h0 : 0 ≤ c.maxBytes) {es : List entry}
    (hes : c.entries = es) {fuel : Nat} (hf : es.length + 1 < fuel) (k : String) (v : Value)
    (n0 : Nat) (hn0 : n0 ≤ (without es k).length + 1)
    (hfit : c.maxBytes = 0 ∨ toInt64 (total ((⟨k, v⟩ :: without es k).take n0)) ≤ c.maxBytes)
    (hover : ∀ m, n0 < m → m ≤ (without es k).length + 1 →
      c.maxBytes ≠ 0 ∧ c.maxBytes < toInt64 (total ((⟨k, v⟩ :: without es k).take m))) :
    ∃ d, c.Add fuel k v = some d ∧ Inv d ∧ d.maxBytes = c.maxBytes ∧
      d.entries = (⟨k, v⟩ :: without es k).take n0 := by
  subst hes
  obtain ⟨d, hd⟩ := Add_total hI h0 (by rw [← hI.entries_length]; exact hf) k v
  obtain ⟨hId, hm, _⟩ := Add_spec hI hd
  exact ⟨d, hd, hId, hm, Add_entries_of hI hd n0 hn0 hfit hover⟩

theorem reachable_crest : Reachable crest := by
  have h0 := reachable_new 9223372036854775807 false
  have h1 := (h0.added (by decide) "a" ⟨1, 9223372036854775805⟩).1
  have m1 := h0.maxBytes_added (by decide) "a" ⟨1, 9223372036854775805⟩
  have h2 := (h1.added (by rw [m1]; decide) "b" ⟨2, 0⟩).1
  have m2 := (h1.maxBytes_added (by rw [m1]; decide) "b" ⟨2, 0⟩).trans m1
  exact (h2.added (by rw [m2]; decide) "c" ⟨3, 9223372036854775805⟩).1

/-- C3, counterexample. On an empty cache of capacity `2^63 - 1`, the keys
"a", "b", "c" with value sizes `2^63 - 3`, `0`, `2^63 - 3` satisfy the
conditions of the claim: "a" and "b" fit together, all three exceed the
capacity, "b" and "c" fit together.  After the three calls of `Add` nothing
has been evicted: `nbytes = -3`, `Len() = 3` and `Get("a")` succeeds. -/
theorem C3_lru_eviction_counterexample :
    Reachable crest ∧ (0 : Int) < 9223372036854775807 ∧
      (len "a" + (⟨1, 9223372036854775805⟩ : Value).Len) + (len "b" + (⟨2, 0⟩ : Value).Len) ≤
        9223372036854775807 ∧
      9223372036854775807 < (len "a" + (⟨1, 9223372036854775805⟩ : Value).Len) +
        (len "b" + (⟨2, 0⟩ : Value).Len) + (len "c" + (⟨3, 9223372036854775805⟩ : Value).Len) ∧
      (len "b" + (⟨2, 0⟩ : Value).Len) + (len "c" + (⟨3, 9223372036854775805⟩ : Value).Len) ≤
        9223372036854775807 ∧
      crest.keys = ["c", "b", "a"] ∧ crest.nbytes = -3 ∧ crest.Len = 3 ∧
      (crest.Get "a").2 = some ⟨1, 9223372036854775805⟩ :=
  ⟨reachable_crest, by decide, by decide, by decide, by decide, by decide, by decide,
    by decide, by decide⟩

/-- C3, amended. Strict LRU eviction order: on an empty cache with
`maxBytes > 0`, adding pairwise distinct keys `A`, `B`, `C` in that order,
with sizes such that `A` and `B` fit together, all three exceed the capacity
but not the largest `int64`, and `B` and `C` fit together (the size of the
value of `B` not negative), evicts exactly `A`: the three calls return,
`Get(A)` finds nothing, `B` and `C` are held with their values, `Len() = 2`
and `nbytes` is the size of `B` and `C`. -/
theorem C3_lru_eviction_order (cap : Int) (cb : Bool) (A B C : String) (vA vB vC : Value)
    (hcap : 0 < cap) (hAB : A ≠ B) (hAC : A ≠ C) (hBC : B ≠ C)
    (hB : 0 ≤ vB.Len)
    (h1 : (len A + vA.Len) + (len B + vB.Len) ≤ cap)
    (h2 : cap < (len A + vA.Len) + (len B + vB.Len) + (len C + vC.Len))
    (h3 : (len B + vB.Len) + (len C + vC.Len) ≤ cap)
    (h4 : (len A + vA.Len) + (len B + vB.Len) + (len C + vC.Len) ≤ maxInt64)
    (fuel : Nat) (hf : 4 ≤ fuel) :
    ∃ c1 c2 c3, (NewCache cap cb).Add fuel A vA = some c1 ∧ c1.Add fuel B vB = some c2 ∧
      c2.Add fuel C vC = some c3 ∧ c3.entries = [⟨C, vC⟩, ⟨B, vB⟩] ∧
      (c3.Get A).2 = none ∧ (c3.Get B).2 = some vB ∧ (c3.Get C).2 = some vC ∧
      c3.Len = 2 ∧ c3.nbytes = (len B + vB.Len) + (len C + vC.Len) := by
  have lA := len_nonneg A
  have lB := len_nonneg B
  have lC := len_nonneg C
  have rA := vA.Len_range
  have rC := vC.Len_range
  unfold maxInt64 at h4
  have hI0 := Inv_NewCache cap cb
  have m0 : (NewCache cap cb).maxBytes = cap := by
    show toInt64 cap = cap
    exact toInt64_of_range (by omega) (by omega)
  have e0 : (NewCache cap cb).entries = [] := rfl
  have w1 : toInt64 (len A + vA.Len) = len A + vA.Len :=
    toInt64_of_range (by omega) (by omega)
  have w2 : toInt64 (len B + vB.Len + (len A + vA.Len)) = len B + vB.Len + (len A + vA.Len) :=
    toInt64_of_range (by omega) (by omega)
  have w3 : toInt64 (len C + vC.Len + (len B + vB.Len + (len A + vA.Len))) =
      len C + vC.Len + (len B + vB.Len + (len A + vA.Len)) :=
    toInt64_of_range (by omega) (by omega)
  have w4 : toInt64 (len C + vC.Len + (len B + vB.Len)) = len C + vC.Len + (len B + vB.Len) :=
    toInt64_of_range (by omega) (by omega)
  obtain ⟨c1, hc1, hI1, m1, e1⟩ := Add_step hI0 (by rw [m0]; omega) e0
    (show ([] : List entry).length + 1 < fuel by simp; omega) A vA 1 (by simp [without])
    (Or.inr (by rw [m0]; simp [without, total, entry.size, w1]; omega))
    (fun m hm hm2 => by simp [without] at hm2; omega)
  rw [m0] at m1
  have e1b : c1.entries = [⟨A, vA⟩] := by rw [e1]; simp [without]
  obtain ⟨c2, hc2, hI2, m2, e2⟩ := Add_step hI1 (by rw [m1]; omega) e1b
    (show ([⟨A, vA⟩] : List entry).length + 1 < fuel by simp; omega) B vB 2
    (by simp [without, hAB])
    (Or.inr (by rw [m1]; simp [without, hAB, total, entry.size, w2]; omega))
    (fun m hm hm2 => by simp [without, hAB] at hm2; omega)
  rw [m1] at m2
  have e2b : c2.entries = [⟨B, vB⟩, ⟨A, vA⟩] := by rw [e2]; simp [without, hAB]
  obtain ⟨c3, hc3, hI3, m3, e3⟩ := Add_step hI2 (by rw [m2]; omega) e2b
    (show ([⟨B, vB⟩, ⟨A, vA⟩] : List entry).length + 1 < fuel by simp; omega) C vC 2
    (by simp [without, hAC, hBC])
    (Or.inr (by rw [m2]; simp [without, hAC, hBC, total, entry.size, w4]; omega))
    (fun m hm hm2 => by
      simp [without, hAC, hBC] at hm2
      have hm3 : m = 3 := by omega
      subst hm3
      rw [m2]
      simp [without, hAC, hBC, total, entry.size, w3]
      omega)
  have e3b : c3.entries = [⟨C, vC⟩, ⟨B, vB⟩] := by rw [e3]; simp [without, hAC, hBC]
  refine ⟨c1, c2, c3, hc1, hc2, hc3, e3b, ?_, ?_, ?_, ?_, ?_⟩
  · rw [(Get_spec hI3 A).2.2.1, e3b]
    simp [lookup, List.find?_cons, hAC.symm, hAB.symm]
  · rw [(Get_spec hI3 B).2.2.1, e3b]
    simp [lookup, List.find?_cons, hBC.symm]
  · rw [(Get_spec hI3 C).2.2.1, e3b]
    simp [lookup, List.find?_cons]
  · have := hI3.entries_length
    rw [e3b] at this
    simp [Cache.Len, ← this]
  · rw [hI3.nbytes_eq, e3b]
    have : total [⟨C, vC⟩, ⟨B, vB⟩] = len C + vC.Len + (len B + vB.Len) := by
      simp [total, entry.size]
    rw [this, w4]
    ring

theorem C3_lru_eviction_order_witness :
    ∃ c1 c2 c3, (NewCache 8 false).Add 4 "k1" ⟨1, 2⟩ = some c1 ∧
      c1.Add 4 "k2" ⟨2, 2⟩ = some c2 ∧ c2.Add 4 "k3" ⟨3, 2⟩ = some c3 ∧
      c3.entries = [⟨"k3", ⟨3, 2⟩⟩, ⟨"k2", ⟨2, 2⟩⟩] ∧
      (c3.Get "k1").2 = none ∧ c3.Len = 2 ∧ c3.nbytes = 8 :=
  let ⟨c1, c2, c3, h1, h2, h3, he, hA, _, _, hL, hn⟩ :=
    C3_lru_eviction_order 8 false "k1" "k2" "k3" ⟨1, 2⟩ ⟨2, 2⟩ ⟨3, 2⟩ (by decide) (by decide)
      (by decide) (by decide) (by decide) (by decide) (by decide) (by decide) (by decide) 4
      (by decide)
  ⟨c1, c2, c3, h1, h2, h3, he, hA, hL, hn.trans (by decide)⟩

theorem lookup_append_ne (es : List entry) (e : entry) (k : String) (h : k ≠ e.key) :
    lookup (es ++ [e]) k = lookup es k := by
  have : ¬ e.key = k := fun hx => h hx.symm
  simp [lookup, List.find?_append, List.find?_cons, this]

/-- C5. Recency promotion: in a reachable state holding at least two entries,
after a successful `Get(k)` the entry of `k` is at the front of the recency
order, the entry at the back has another key, and an immediately following
`RemoveOldest` removes that back entry and keeps `k`: `Get(k)` still succeeds
with the same value. -/
theorem C5_recency_promotion (c : Cache) (h : Reachable c) (k : String) (v : Value)
    (h2 : 2 ≤ c.Len) (hget : (c.Get k).2 = some v) :
    ∃ rest e, (c.Get k).1.entries = ⟨k, v⟩ :: (rest ++ [e]) ∧ e.key ≠ k ∧
      (c.Get k).1.RemoveOldest.entries = ⟨k, v⟩ :: rest ∧
      ((c.Get k).1.RemoveOldest.Get k).2 = some v := by
  obtain ⟨hI1, hent, hval, _, _, _, _, hlen⟩ := Get_spec h.holds k
  rw [hval] at hget
  rw [promote_of_lookup hget] at hent
  have hl : (c.Get k).1.entries.length = c.ll.length := by rw [hI1.entries_length, hlen]
  have h2n : 2 ≤ c.ll.length := by
    unfold Cache.Len at h2
    exact_mod_cast h2
  rcases List.eq_nil_or_concat (without c.entries k) with hn | ⟨rest, e, hre⟩
  · rw [hent, hn] at hl
    simp at hl
    omega
  · have hre2 : without c.entries k = rest ++ [e] := by simpa using hre
    have hek : e.key ≠ k := (mem_without (by rw [hre2]; simp)).2
    obtain ⟨hI2, hent2, _⟩ := RemoveOldest_spec hI1
    have hfin : (c.Get k).1.RemoveOldest.entries = ⟨k, v⟩ :: rest := by
      rw [hent2, hent, hre2]
      have : (⟨k, v⟩ :: (rest ++ [e]) : List entry) = (⟨k, v⟩ :: rest) ++ [e] := rfl
      rw [this, List.dropLast_concat]
    refine ⟨rest, e, by rw [hent, hre2], hek, hfin, ?_⟩
    rw [(Get_spec hI2 k).2.2.1, hfin]
    exact lookup_cons_self k v _

theorem C5_recency_promotion_witness :
    Reachable demo3 ∧ 2 ≤ demo3.Len ∧ (demo3.Get "k2").2 = some ⟨2, 2⟩ ∧
      ∃ rest e, (demo3.Get "k2").1.entries = ⟨"k2", ⟨2, 2⟩⟩ :: (rest ++ [e]) ∧ e.key ≠ "k2" ∧
        (demo3.Get "k2").1.RemoveOldest.entries = ⟨"k2", ⟨2, 2⟩⟩ :: rest ∧
        ((demo3.Get "k2").1.RemoveOldest.Get "k2").2 = some ⟨2, 2⟩ :=
  ⟨reachable_demo3, by decide, by decide,
    C5_recency_promotion demo3 reachable_demo3 "k2" ⟨2, 2⟩ (by decide) (by decide)⟩

theorem reachable_tilt : Reachable tilt := by
  have h0 := reachable_new 0 true
  have h1 := (h0.added (by decide) "b" ⟨1, 0⟩).1
  have m1 := h0.maxBytes_added (by decide) "b" ⟨1, 0⟩
  exact (h1.added (by rw [m1]; decide) "a" ⟨2, 9223372036854775806⟩).1

/-- C10, counterexample. On a cache without limit, after `Add("b", w)` with
`w.Len() = 0` and `Add("a", v)` with `v.Len() = 2^63 - 2`, `nbytes` is
`-2^63` and the entry at the back is that of "b", of size 1; after
`RemoveOldest()`, `nbytes` is `2^63 - 1`, not `-2^63 - 1`. -/
theorem C10_remove_oldest_counterexample :
    Reachable tilt ∧ tilt.entries = [⟨"a", ⟨2, 9223372036854775806⟩⟩, ⟨"b", ⟨1, 0⟩⟩] ∧
      tilt.nbytes = -9223372036854775808 ∧
      tilt.RemoveOldest.entries = [⟨"a", ⟨2, 9223372036854775806⟩⟩] ∧
      tilt.RemoveOldest.nbytes = 9223372036854775807 ∧
      tilt.RemoveOldest.nbytes ≠ tilt.nbytes - (len "b" + (⟨1, 0⟩ : Value).Len) :=
  ⟨reachable_tilt, by decide, by decide, by decide, by decide, by decide⟩

/-- C10, amended. Postcondition of `RemoveOldest` in a reachable state.  When
the list is not empty, the entry `e` at the back of the recency order is
removed: the other entries stay, in their order; `e.key` is no longer found
and every other key is found as before; `Len()` decreases by 1; `nbytes`
decreases by `len(e.key) + e.value.Len()` in `int64` arithmetic (modulo
`2^64`), and by exactly that amount when the difference lies in the range of
`int64`; and when `OnEvicted` is configured it is called exactly once, with
`e.key` and `e.value`, seeing the list and byte counter after the removal,
otherwise not at all.  On an empty cache the state does not change. -/
theorem C10_remove_oldest_postcondition (c : Cache) (h : Reachable c) :
    (c.ll ≠ [] → ∃ rest e, c.entries = rest ++ [e] ∧ c.RemoveOldest.entries = rest ∧
        (c.RemoveOldest.Get e.key).2 = none ∧
        (∀ k, k ≠ e.key → (c.RemoveOldest.Get k).2 = (c.Get k).2) ∧
        c.RemoveOldest.Len = c.Len - 1 ∧
        c.RemoveOldest.nbytes = toInt64 (c.nbytes - (len e.key + e.value.Len)) ∧
        (-9223372036854775808 ≤ c.nbytes - (len e.key + e.value.Len) →
          c.nbytes - (len e.key + e.value.Len) ≤ 9223372036854775807 →
          c.RemoveOldest.nbytes = c.nbytes - (len e.key + e.value.Len)) ∧
        c.RemoveOldest.evictions = c.evictions ++
          (if c.OnEvicted then
            [⟨e.key, e.value, c.RemoveOldest.ll, c.RemoveOldest.nbytes⟩] else [])) ∧
      (c.ll = [] → c.RemoveOldest = c) := by
  refine ⟨fun hne => ?_, RemoveOldest_nil⟩
  rcases List.eq_nil_or_concat c.ll with hn | ⟨ys, el, hys⟩
  · exact absurd hn hne
  · have hys2 : c.ll = ys ++ [el] := by simpa using hys
    obtain ⟨kv, hkv, hent, heq, hI2, hent2⟩ := RemoveOldest_concat h.holds hys2
    rw [heq]
    have hnb : (removed c ys kv).nbytes = toInt64 (c.nbytes - (len kv.key + kv.value.Len)) := by
      show toInt64 (c.nbytes - toInt64 (len kv.key + kv.value.Len)) = _
      unfold toInt64
      omega
    refine ⟨ys.filterMap c.heap, kv, hent, hent2, ?_, ?_, ?_, hnb, ?_, ?_⟩
    · simp [Cache.Get, removed, assign]
    · intro k hk
      rw [(Get_spec hI2 k).2.2.1, (Get_spec h.holds k).2.2.1, hent2, hent,
        lookup_append_ne _ _ _ hk]
    · simp [Cache.Len, removed, hys2]
    · intro h1 h2
      rw [hnb, toInt64_of_range h1 h2]
    · cases ho : c.OnEvicted <;> simp [removed, ho]

theorem C10_remove_oldest_postcondition_witness :
    Reachable demo3 ∧ demo3.ll ≠ [] ∧
      ∃ rest e, demo3.entries = rest ++ [e] ∧ demo3.RemoveOldest.entries = rest ∧
        (demo3.RemoveOldest.Get e.key).2 = none ∧
        (∀ k, k ≠ e.key → (demo3.RemoveOldest.Get k).2 = (demo3.Get k).2) ∧
        demo3.RemoveOldest.Len = demo3.Len - 1 ∧
        demo3.RemoveOldest.nbytes = toInt64 (demo3.nbytes - (len e.key + e.value.Len)) ∧
        demo3.RemoveOldest.evictions = demo3.evictions ++
          (if demo3.OnEvicted then
            [⟨e.key, e.value, demo3.RemoveOldest.ll, demo3.RemoveOldest.nbytes⟩] else []) :=
  let ⟨rest, e, h1, h2, h3, h4, h5, h6, _, h8⟩ :=
    (C10_remove_oldest_postcondition demo3 reachable_demo3).1 (by decide)
  ⟨reachable_demo3, by decide, rest, e, h1, h2, h3, h4, h5, h6, h8⟩

end LRU

namespace Ring

theorem point_congr {m n : Map} (h : n.hash = m.hash) (s : String) : n.point s = m.point s := by
  simp [Map.point, h]

theorem points_congr {m n : Map} (h : n.hash = m.hash) (hr : n.replicas = m.replicas)
    (key : String) : n.points key = m.points key := by
  simp [Map.points, Map.point, h, hr]

/-- The inner loop of `Add` over the replica indices `l`. -/
theorem fold_addPoint (key : String) : ∀ (l : List Nat) (m : Map),
    (l.foldl (fun m i => m.addPoint key i) m).hash = m.hash ∧
    (l.foldl (fun m i => m.addPoint key i) m).replicas = m.replicas ∧
    (l.foldl (fun m i => m.addPoint key i) m).keys =
      m.keys ++ l.map (fun i => m.point (toString i ++ key)) ∧
    ∀ p, (l.foldl (fun m i => m.addPoint key i) m).hashMap p =
      if p ∈ l.map (fun i => m.point (toString i ++ key)) then some key else m.hashMap p := by
  intro l
  induction l with
  | nil => intro m; simp
  | cons i l ih =>
    intro m
    obtain ⟨h1, h2, h3, h4⟩ := ih (m.addPoint key i)
    have hh : (m.addPoint key i).hash = m.hash := rfl
    have hp : ∀ s, (m.addPoint key i).point s = m.point s := point_congr hh
    simp only [List.foldl_cons, List.map_cons]
    refine ⟨h1.trans hh, h2, ?_, ?_⟩
    · rw [h3]
      simp only [hp]
      simp [Map.addPoint]
    · intro p
      rw [h4 p]
      simp only [hp]
      by_cases hpl : p ∈ l.map (fun i => m.point (toString i ++ key))
      · simp [hpl]
      · by_cases hpi : p = m.point (toString i ++ key)
        · simp [hpi, Map.addPoint]
        · simp [hpl, hpi, Map.addPoint]

theorem addNode_spec (m : Map) (key : String) :
    (m.addNode key).hash = m.hash ∧ (m.addNode key).replicas = m.replicas ∧
    (m.addNode key).keys = m.keys ++ m.points key ∧
    ∀ p, (m.addNode key).hashMap p = if p ∈ m.points key then some key else m.hashMap p :=
  fold_addPoint key (List.range m.replicas.toNat) m

theorem length_points (m : Map) (key : String) : (m.points key).length = m.replicas.toNat := by
  simp [Map.points]

/-- The outer loop of `Add` over the batch of node identifiers. -/
theorem fold_addNode : ∀ (batch : List String) (m : Map),
    (batch.foldl Map.addNode m).hash = m.hash ∧
    (batch.foldl Map.addNode m).replicas = m.replicas ∧
    (∀ p, p ∈ (batch.foldl Map.addNode m).keys ↔
      p ∈ m.keys ∨ ∃ node ∈ batch, p ∈ m.points node) ∧
    (batch.foldl Map.addNode m).keys.length =
      m.keys.length + m.replicas.toNat * batch.length ∧
    (∀ p, (¬ ∃ node ∈ batch, p ∈ m.points node) →
      (batch.foldl Map.addNode m).hashMap p = m.hashMap p) ∧
    (∀ p, (∃ node ∈ batch, p ∈ m.points node) →
      ∃ node ∈ batch, (batch.foldl Map.addNode m).hashMap p = some node ∧
        p ∈ m.points node) := by
  intro batch
  induction batch with
  | nil => intro m; simp
  | cons node batch ih =>
    intro m
    obtain ⟨a1, a2, a3, a4⟩ := addNode_spec m node
    obtain ⟨h1, h2, h3, h4, h5, h6⟩ := ih (m.addNode node)
    have hpts : ∀ key, (m.addNode node).points key = m.points key := points_congr a1 a2
    simp only [List.foldl_cons]
    refine ⟨h1.trans a1, h2.trans a2, ?_, ?_, ?_, ?_⟩
    · intro p
      rw [h3 p, a3]
      simp only [hpts, List.mem_append, List.mem_cons, exists_eq_or_imp]
      tauto
    · rw [h4, a2, a3, List.length_append, length_points, List.length_cons]
      ring
    · intro p hp
      have hp1 : ¬ ∃ n ∈ batch, p ∈ (m.addNode node).points n := by
        rintro ⟨n, hn, hpn⟩
        exact hp ⟨n, List.mem_cons_of_mem _ hn, by rwa [hpts] at hpn⟩
      have hp2 : p ∉ m.points node := fun hx => hp ⟨node, List.mem_cons_self _ _, hx⟩
      rw [h5 p hp1, a4 p, if_neg hp2]
    · intro p hp
      by_cases hb : ∃ n ∈ batch, p ∈ (m.addNode node).points n
      · obtain ⟨n, hn, hmap, hpn⟩ := h6 p hb
        exact ⟨n, List.mem_cons_of_mem _ hn, hmap, by rwa [hpts] at hpn⟩
      · obtain ⟨n, hn, hpn⟩ := hp
        have hnode : p ∈ m.points node := by
          rcases List.mem_cons.1 hn with h | h
          · rwa [h] at hpn
          · exact absurd ⟨n, h, by rwa [hpts]⟩ hb
        exact ⟨node, List.mem_cons_self _ _, by rw [h5 p hb, a4 p, if_pos hnode], hnode⟩

/-- Method `Add`: the new points, their owners, and the sorted result. -/
theorem ring_Add_spec (m : Map) (batch : List String) :
    (m.Add batch).hash = m.hash ∧ (m.Add batch).replicas = m.replicas ∧
    (m.Add batch).keys.Sorted (fun a b => a ≤ b) ∧
    (∀ p, p ∈ (m.Add batch).keys ↔ p ∈ m.keys ∨ ∃ node ∈ batch, p ∈ m.points node) ∧
    (m.Add batch).keys.length = m.keys.length + m.replicas.toNat * batch.length ∧
    (∀ p, (¬ ∃ node ∈ batch, p ∈ m.points node) → (m.Add batch).hashMap p = m.hashMap p) ∧
    (∀ p, (∃ node ∈ batch, p ∈ m.points node) →
      ∃ node ∈ batch, (m.Add batch).hashMap p = some node ∧ p ∈ m.points node) := by
  obtain ⟨h1, h2, h3, h4, h5, h6⟩ := fold_addNode batch m
  refine ⟨h1, h2, ?_, ?_, ?_, h5, h6⟩
  · exact List.sorted_insertionSort _ _
  · intro p
    rw [← h3 p]
    exact (List.perm_insertionSort _ _).mem_iff
  · rw [← h4]
    exact (List.perm_insertionSort _ _).length_eq

theorem RInv_NewMap (replicas : Int) (fn : Option Hash) : RInv [] (NewMap replicas fn) := by
  constructor <;> simp [NewMap]

theorem RInv.add {nodes : List String} {m : Map} (hI : RInv nodes m) (batch : List String) :
    RInv (nodes ++ batch) (m.Add batch) := by
  obtain ⟨h1, h2, h3, h4, h5, h6, h7⟩ := ring_Add_spec m batch
  have hpts : ∀ key, (m.Add batch).points key = m.points key := points_congr h1 h2
  constructor
  · exact h3
  · intro p hp
    by_cases hb : ∃ node ∈ batch, p ∈ m.points node
    · obtain ⟨n, hn, hmap, hpn⟩ := h7 p hb
      exact ⟨n, List.mem_append_right _ hn, hmap, by rwa [hpts]⟩
    · have hold : p ∈ m.keys := by
        rcases (h4 p).1 hp with h | h
        · exact h
        · exact absurd h hb
      obtain ⟨n, hn, hmap, hpn⟩ := hI.owned p hold
      exact ⟨n, List.mem_append_left _ hn, by rw [h6 p hb, hmap], by rwa [hpts]⟩
  · rw [h5, h2, hI.count, List.length_append]
    ring

theorem Built.rinv {nodes : List String} {m : Map} (h : Built nodes m) : RInv nodes m := by
  induction h with
  | new replicas fn => exact RInv_NewMap _ _
  | add keys _ ih => exact ih.add keys

theorem getD_mem : ∀ (l : List Nat) (i : Nat), i < l.length → l.getD i 0 ∈ l := by
  intro l
  induction l with
  | nil => intro i hi; simp at hi
  | cons x xs ih =>
    intro i hi
    cases i with
    | zero => rw [List.getD_cons_zero]; exact List.mem_cons_self _ _
    | succ i =>
      rw [List.getD_cons_succ]
      exact List.mem_cons_of_mem _ (ih i (by simpa using hi))

theorem exists_getD_of_mem : ∀ (l : List Nat) (q : Nat), q ∈ l →
    ∃ i, i < l.length ∧ l.getD i 0 = q := by
  intro l
  induction l with
  | nil => intro q hq; simp at hq
  | cons x xs ih =>
    intro q hq
    rcases List.mem_cons.1 hq with h | h
    · exact ⟨0, by simp, by rw [List.getD_cons_zero, h]⟩
    · obtain ⟨i, hi, hiq⟩ := ih q h
      exact ⟨i + 1, by simpa using hi, by rw [List.getD_cons_succ, hiq]⟩

theorem sorted_getD_mono : ∀ (l : List Nat), l.Sorted (fun a b => a ≤ b) →
    ∀ a b, a ≤ b → b < l.length → l.getD a 0 ≤ l.getD b 0 := by
  intro l
  induction l with
  | nil => intro _ a b _ hb; simp at hb
  | cons x xs ih =>
    intro hs a b hab hb
    obtain ⟨hx, hxs⟩ := List.sorted_cons.1 hs
    cases b with
    | zero =>
      have : a = 0 := by omega
      rw [this]
    | succ b =>
      have hb2 : b < xs.length := by simpa using hb
      cases a with
      | zero =>
        rw [List.getD_cons_zero, List.getD_cons_succ]
        exact hx _ (getD_mem xs b hb2)
      | succ a =>
        rw [List.getD_cons_succ, List.getD_cons_succ]
        exact ih hxs a b (by omega) hb2

/-- The binary search loop narrows `[i, j)` to the first index where a
monotone predicate holds. -/
theorem searchLoop_spec (f : Nat → Bool) (n : Nat)
    (mono : ∀ a b, a ≤ b → b < n → f a = true → f b = true) :
    ∀ (fuel i j : Nat), i ≤ j → j ≤ n → j - i ≤ fuel →
      (∀ a, a < i → f a = false) → (∀ a, j ≤ a → a < n → f a = true) →
      searchLoop f fuel i j ≤ n ∧
      (∀ a, a < searchLoop f fuel i j → f a = false) ∧
      (∀ a, searchLoop f fuel i j ≤ a → a < n → f a = true) := by
  intro fuel
  induction fuel with
  | zero =>
    intro i j hij hjn hf hlo hhi
    have : i = j := by omega
    subst this
    exact ⟨hjn, hlo, hhi⟩
  | succ fuel ih =>
    intro i j hij hjn hf hlo hhi
    by_cases hlt : i < j
    · have hmid1 : i ≤ (i + j) / 2 := by omega
      have hmid2 : (i + j) / 2 < j := by omega
      cases hfh : f ((i + j) / 2) with
      | false =>
        have hstep : searchLoop f (fuel + 1) i j = searchLoop f fuel ((i + j) / 2 + 1) j := by
          simp [searchLoop, hlt, hfh]
        rw [hstep]
        apply ih _ _ (by omega) hjn (by omega) _ hhi
        intro a ha
        by_contra hfa
        have hfa2 : f a = true := by simpa using hfa
        have := mono a ((i + j) / 2) (by omega) (by omega) hfa2
        rw [hfh] at this
        cases this
      | true =>
        have hstep : searchLoop f (fuel + 1) i j = searchLoop f fuel i ((i + j) / 2) := by
          simp [searchLoop, hlt, hfh]
        rw [hstep]
        apply ih _ _ hmid1 (by omega) (by omega) hlo
        intro a ha1 ha2
        exact mono _ a ha1 ha2 hfh
    · have hstep : searchLoop f (fuel + 1) i j = i := by simp [searchLoop, hlt]
      have : i = j := by omega
      subst this
      rw [hstep]
      exact ⟨hjn, hlo, hhi⟩

/-- Function `sort.Search` returns the first index of `[0, n)` where a
monotone predicate holds, and `n` when there is none. -/
theorem Search_spec (f : Nat → Bool) (n : Nat)
    (mono : ∀ a b, a ≤ b → b < n → f a = true → f b = true) :
    Search n f ≤ n ∧ (∀ a, a < Search n f → f a = false) ∧
      (∀ a, Search n f ≤ a → a < n → f a = true) :=
  searchLoop_spec f n mono n 0 n (Nat.zero_le _) (le_refl _) (by omega)
    (fun a ha => absurd ha (Nat.not_lt_zero a)) (fun a h1 h2 => absurd h2 (by omega))

theorem Succ.unique {ks : List Nat} {h p q : Nat} (hp : Succ ks h p) (hq : Succ ks h q) :
    p = q := by
  obtain ⟨hpm, hp2⟩ := hp
  obtain ⟨hqm, hq2⟩ := hq
  rcases hp2 with ⟨a1, a2⟩ | ⟨a1, a2⟩ <;> rcases hq2 with ⟨b1, b2⟩ | ⟨b1, b2⟩
  · exact Nat.le_antisymm (a2 q hqm b1) (b2 p hpm a1)
  · have := b1 p hpm; omega
  · have := a1 q hqm; omega
  · exact Nat.le_antisymm (a2 q hqm) (b2 p hpm)

theorem Get_nil {m : Map} (h : m.keys = []) (key : String) : m.Get key = "" := by
  simp [Map.Get, h]

/-- Method `Get` on a ring with points: the owner recorded for the clockwise
successor of the hash of the key. -/
theorem Get_succ {nodes : List String} {m : Map} (hI : RInv nodes m) (hne : m.keys ≠ [])
    (key : String) :
    ∃ p, Succ m.keys (m.point key) p ∧ m.Get key = (m.hashMap p).getD "" ∧
      ((∀ q ∈ m.keys, q < m.point key) → m.keys.head? = some p) := by
  have hpos : 0 < m.keys.length := List.length_pos.2 hne
  have hlen : ¬ m.keys.length = 0 := by omega
  have mono : ∀ a b, a ≤ b → b < m.keys.length →
      (fun i => decide (m.keys.getD i 0 ≥ m.point key)) a = true →
      (fun i => decide (m.keys.getD i 0 ≥ m.point key)) b = true := by
    intro a b hab hb ha
    have h1 := sorted_getD_mono m.keys hI.sorted a b hab hb
    have h2 : m.point key ≤ m.keys.getD a 0 := by simpa using ha
    have h3 : m.point key ≤ m.keys.getD b 0 := le_trans h2 h1
    simpa using h3
  obtain ⟨hr, hlo, hhi⟩ := Search_spec _ _ mono
  have hget : m.Get key = (m.hashMap (m.keys.getD
      (Search m.keys.length (fun i => decide (m.keys.getD i 0 ≥ m.point key)) %
        m.keys.length) 0)).getD "" := by
    unfold Map.Get
    rw [if_neg hlen]
  have hbelow : ∀ a, a < Search m.keys.length
      (fun i => decide (m.keys.getD i 0 ≥ m.point key)) → m.keys.getD a 0 < m.point key := by
    intro a ha
    have := hlo a ha
    have h2 : ¬ m.point key ≤ m.keys.getD a 0 := by simpa using this
    omega
  by_cases hlt : Search m.keys.length (fun i => decide (m.keys.getD i 0 ≥ m.point key)) <
      m.keys.length
  · rw [Nat.mod_eq_of_lt hlt] at hget
    have hmem := getD_mem m.keys _ hlt
    have hge : m.point key ≤ m.keys.getD
        (Search m.keys.length (fun i => decide (m.keys.getD i 0 ≥ m.point key))) 0 := by
      simpa using hhi _ (le_refl _) hlt
    refine ⟨_, ⟨hmem, Or.inl ⟨hge, ?_⟩⟩, hget, ?_⟩
    · intro q hq hhq
      obtain ⟨a, ha, haq⟩ := exists_getD_of_mem m.keys q hq
      by_cases har : a < Search m.keys.length
          (fun i => decide (m.keys.getD i 0 ≥ m.point key))
      · have := hbelow a har
        omega
      · rw [← haq]
        exact sorted_getD_mono m.keys hI.sorted _ a (by omega) ha
    · intro hall
      have := hall _ hmem
      omega
  · have heq : Search m.keys.length (fun i => decide (m.keys.getD i 0 ≥ m.point key)) =
        m.keys.length := by omega
    rw [heq, Nat.mod_self] at hget
    rw [heq] at hbelow
    have hmem := getD_mem m.keys 0 hpos
    have hall : ∀ q ∈ m.keys, q < m.point key := by
      intro q hq
      obtain ⟨a, ha, haq⟩ := exists_getD_of_mem m.keys q hq
      rw [← haq]
      exact hbelow a ha
    have hmin : ∀ q ∈ m.keys, m.keys.getD 0 0 ≤ q := by
      intro q hq
      obtain ⟨a, ha, haq⟩ := exists_getD_of_mem m.keys q hq
      rw [← haq]
      exact sorted_getD_mono m.keys hI.sorted 0 a (Nat.zero_le _) ha
    refine ⟨_, ⟨hmem, Or.inr ⟨hall, hmin⟩⟩, hget, fun _ => ?_⟩
    cases hk : m.keys with
    | nil => exact absurd hk hne
    | cons x xs => simp

theorem built_demoRing : Built ["6", "4", "2"] demoRing :=
  Built.add ["6", "4", "2"] (Built.new 3 (some digits))

theorem built_ring3 : Built ["node1", "node2", "node3"] ring3 :=
  Built.add ["node1", "node2", "node3"] (Built.new 3 none)

/-- C6. Ring lookup is the clockwise successor: on a ring built by `NewMap`
and `Add` (any hash function) that has at least one point, `Get(key)` returns
the owner recorded in `hashMap` for a point `p` of the ring such that, when
some point is `>= hash(key)`, `p` is the least such point, and otherwise `p`
is the least point of all, the one at index 0. -/
theorem C6_ring_lookup_successor (nodes : List String) (m : Map) (h : Built nodes m)
    (hne : m.keys ≠ []) (key : String) :
    ∃ p owner, p ∈ m.keys ∧ m.hashMap p = some owner ∧ m.Get key = owner ∧
      ((∃ q ∈ m.keys, m.point key ≤ q) →
        m.point key ≤ p ∧ ∀ q ∈ m.keys, m.point key ≤ q → p ≤ q) ∧
      ((∀ q ∈ m.keys, q < m.point key) →
        (∀ q ∈ m.keys, p ≤ q) ∧ m.keys.head? = some p) := by
  obtain ⟨p, ⟨hpm, hsucc⟩, hget, hhead⟩ := Get_succ h.rinv hne key
  obtain ⟨owner, _, hown, _⟩ := h.rinv.owned p hpm
  refine ⟨p, owner, hpm, hown, by rw [hget, hown]; rfl, ?_, ?_⟩
  · rintro ⟨q, hq, hhq⟩
    rcases hsucc with h1 | h1
    · exact h1
    · have := h1.1 q hq
      omega
  · intro hall
    rcases hsucc with h1 | h1
    · have := hall p hpm
      omega
    · exact ⟨h1.2, hhead hall⟩

theorem C6_ring_lookup_successor_witness :
    Built ["6", "4", "2"] demoRing ∧ demoRing.keys ≠ [] ∧
      ∃ p owner, p ∈ demoRing.keys ∧ demoRing.hashMap p = some owner ∧
        demoRing.Get "27" = owner ∧
        ((∃ q ∈ demoRing.keys, demoRing.point "27" ≤ q) →
          demoRing.point "27" ≤ p ∧ ∀ q ∈ demoRing.keys, demoRing.point "27" ≤ q → p ≤ q) ∧
        ((∀ q ∈ demoRing.keys, q < demoRing.point "27") →
          (∀ q ∈ demoRing.keys, p ≤ q) ∧ demoRing.keys.head? = some p) :=
  ⟨built_demoRing, by decide,
    C6_ring_lookup_successor ["6", "4", "2"] demoRing built_demoRing (by decide) "27"⟩

/-- C7. Ring totality: on a ring built with `replicas >= 1` (any hash
function) to which at least one node identifier has been added, all of them
non-empty, `Get(key)` returns one of the added identifiers and never the
empty string, for every key; the index `idx % len(m.keys)` is in range and
every ring point has an owner recorded in `hashMap`. -/
theorem C7_ring_totality (nodes : List String) (m : Map) (h : Built nodes m)
    (hr : 1 ≤ m.replicas) (hne : nodes ≠ []) (hnodes : ∀ n ∈ nodes, n ≠ "") (key : String) :
    m.Get key ∈ nodes ∧ m.Get key ≠ "" ∧
      Search m.keys.length (fun i => decide (m.keys.getD i 0 ≥ m.point key)) % m.keys.length <
        m.keys.length ∧
      ∀ p ∈ m.keys, ∃ owner ∈ nodes, m.hashMap p = some owner := by
  have hI := h.rinv
  have hlen : 0 < m.keys.length := by
    rw [hI.count]
    have h1 : 0 < m.replicas.toNat := by omega
    have h2 : 0 < nodes.length := List.length_pos.2 hne
    exact Nat.mul_pos h1 h2
  have hk : m.keys ≠ [] := List.length_pos.1 hlen
  obtain ⟨p, ⟨hpm, _⟩, hget, _⟩ := Get_succ hI hk key
  obtain ⟨owner, hown, hmap, _⟩ := hI.owned p hpm
  have hres : m.Get key = owner := by rw [hget, hmap]; rfl
  refine ⟨by rw [hres]; exact hown, by rw [hres]; exact hnodes owner hown,
    Nat.mod_lt _ hlen, ?_⟩
  intro q hq
  obtain ⟨o, ho, hmo, _⟩ := hI.owned q hq
  exact ⟨o, ho, hmo⟩

theorem C7_ring_totality_witness :
    Built ["node1", "node2", "node3"] ring3 ∧ 1 ≤ ring3.replicas ∧
      ring3.Get "some key" ∈ ["node1", "node2", "node3"] ∧ ring3.Get "some key" ≠ "" :=
  let r := C7_ring_totality ["node1", "node2", "node3"] ring3 built_ring3 (by decide)
    (by decide) (by decide) "some key"
  ⟨built_ring3, by decide, r.1, r.2.1⟩

/-- The result of `Get` after `Add(batch)` is either what it was before or
one of the identifiers of the batch. -/
theorem Get_after_Add (nodes : List String) (m : Map) (h : Built nodes m)
    (batch : List String) (key : String) :
    (m.Add batch).Get key = m.Get key ∨ (m.Add batch).Get key ∈ batch := by
  have hI := h.rinv
  have hI2 := hI.add batch
  obtain ⟨a1, a2, _, a4, _, a6, a7⟩ := ring_Add_spec m batch
  have hpt : (m.Add batch).point key = m.point key := point_congr a1 key
  by_cases hk2 : (m.Add batch).keys = []
  · have hk : m.keys = [] := by
      cases hm : m.keys with
      | nil => rfl
      | cons x xs =>
        have : x ∈ (m.Add batch).keys := (a4 x).2 (Or.inl (by rw [hm]; simp))
        rw [hk2] at this
        cases this
    left
    rw [Get_nil hk2, Get_nil hk]
  · obtain ⟨q, hq, hget2, _⟩ := Get_succ hI2 hk2 key
    rw [hpt] at hq
    by_cases hb : ∃ node ∈ batch, q ∈ m.points node
    · obtain ⟨n, hn, hmap, _⟩ := a7 q hb
      right
      rw [hget2, hmap]
      exact hn
    · have hqold : q ∈ m.keys := by
        rcases (a4 q).1 hq.1 with h1 | h1
        · exact h1
        · exact absurd h1 hb
      have hk : m.keys ≠ [] := List.ne_nil_of_mem hqold
      obtain ⟨p, hp, hget, _⟩ := Get_succ hI hk key
      have hsub : ∀ x ∈ m.keys, x ∈ (m.Add batch).keys := fun x hx => (a4 x).2 (Or.inl hx)
      have hq2 : Succ m.keys (m.point key) q := by
        refine ⟨hqold, ?_⟩
        rcases hq.2 with ⟨b1, b2⟩ | ⟨b1, b2⟩
        · exact Or.inl ⟨b1, fun x hx hhx => b2 x (hsub x hx) hhx⟩
        · exact Or.inr ⟨fun x hx => b1 x (hsub x hx), fun x hx => b2 x (hsub x hx)⟩
      have hpq : p = q := hp.unique hq2
      left
      rw [hget2, hget, a6 q hb, hpq]

theorem built_collideRing : Built ["12", "2"] collideRing :=
  Built.add ["12", "2"] (Built.new 2 (some digits))

/-- C8, counterexample. On the ring `NewMap(2, digits)`, `Add("12", "2")` the
key "12" is served by the node "2"; after a further `Add("12")` it is served
by the node "12": the key has moved from one previously present node to
another previously present node. -/
theorem C8_minimal_disruption_counterexample :
    Built ["12", "2"] collideRing ∧ "2" ∈ ["12", "2"] ∧ "12" ∈ ["12", "2"] ∧
      collideRing.Get "12" = "2" ∧ (collideRing.Add ["12"]).Get "12" = "12" ∧
      (collideRing.Add ["12"]).Get "12" ≠ collideRing.Get "12" :=
  ⟨built_collideRing, by decide, by decide, by decide, by decide, by decide⟩

/-- C8, amended. Minimal disruption under node addition: on a ring built by
`NewMap` and `Add` (any hash function), for every key and every batch of node
identifiers, `Get(key)` after `Add(batch)` is either what `Get(key)` was
before or one of the identifiers of the batch; hence, when no identifier of
the batch was added before, a key served by a previously added node after the
`Add` was served by that same node before: no key moves from one previously
present node to another. -/
theorem C8_minimal_disruption (nodes : List String) (m : Map) (h : Built nodes m)
    (batch : List String) (key : String) :
    ((m.Add batch).Get key = m.Get key ∨ (m.Add batch).Get key ∈ batch) ∧
      ((∀ n ∈ batch, n ∉ nodes) → (m.Add batch).Get key ∈ nodes →
        (m.Add batch).Get key = m.Get key) := by
  have h1 := Get_after_Add nodes m h batch key
  refine ⟨h1, fun hnew hold => ?_⟩
  rcases h1 with h2 | h2
  · exact h2
  · exact absurd hold (hnew _ h2)

theorem C8_minimal_disruption_witness :
    Built ["6", "4", "2"] demoRing ∧ (∀ n ∈ ["8"], n ∉ ["6", "4", "2"]) ∧
      ((demoRing.Add ["8"]).Get "27" = demoRing.Get "27" ∨
        (demoRing.Add ["8"]).Get "27" ∈ ["8"]) ∧
      ((demoRing.Add ["8"]).Get "23" ∈ ["6", "4", "2"] →
        (demoRing.Add ["8"]).Get "23" = demoRing.Get "23") :=
  ⟨built_demoRing, by decide,
    (C8_minimal_disruption ["6", "4", "2"] demoRing built_demoRing ["8"] "27").1,
    (C8_minimal_disruption ["6", "4", "2"] demoRing built_demoRing ["8"] "23").2 (by decide)⟩

end Ring

namespace LRU

theorem MoveToFront_perm (l : List Nat) (el : Nat) : (MoveToFront l el).Perm l := by
  unfold MoveToFront
  split
  · next h => exact (List.perm_cons_erase h).symm
  · exact List.Perm.refl _

/-- Method `Get` only reorders the list. -/
theorem Get_frame (c : Cache) (k : String) :
    (c.Get k).1.ll.Perm c.ll ∧ (c.Get k).1.heap = c.heap ∧ (c.Get k).1.cache = c.cache ∧
      (c.Get k).1.nbytes = c.nbytes ∧ (c.Get k).1.maxBytes = c.maxBytes ∧
      (c.Get k).1.evictions = c.evictions ∧ (c.Get k).1.OnEvicted = c.OnEvicted := by
  unfold Cache.Get
  cases hk : c.cache k with
  | none => simp
  | some el =>
    cases hh : c.heap el with
    | none => simp [hh, MoveToFront_perm]
    | some kv => simp [hh, MoveToFront_perm]

theorem Get_miss {c : Cache} {k : String} (h : c.cache k = none) : c.Get k = (c, none) := by
  simp [Cache.Get, h]

theorem Inv.mem_entries {c : Cache} (hI : Inv c) {k : String} {el : Nat}
    (hk : c.cache k = some el) : ∃ kv, kv ∈ c.entries ∧ kv.key = k := by
  obtain ⟨hmem, kv, hkv, hkey⟩ := hI.indexed k el hk
  exact ⟨kv, List.mem_filterMap.2 ⟨el, hmem, hkv⟩, hkey⟩

theorem Inv.cache_of_mem {c : Cache} (hI : Inv c) {e : entry} (he : e ∈ c.entries) :
    ∃ el, c.cache e.key = some el ∧ el ∈ c.ll ∧ c.heap el = some e := by
  obtain ⟨el, hel, hhe⟩ := List.mem_filterMap.1 he
  obtain ⟨kv, h1, h2⟩ := hI.held el hel
  rw [hhe] at h1
  cases h1
  exact ⟨el, h2, hel, hhe⟩

/-- No two entries of the list carry the same key. -/
theorem Inv.keys_nodup {c : Cache} (hI : Inv c) : c.keys.Nodup := by
  have key : ∀ l : List Nat, l.Nodup → (∀ a ∈ l, a ∈ c.ll) →
      ((l.filterMap c.heap).map entry.key).Nodup := by
    intro l
    induction l with
    | nil => intro _ _; simp
    | cons a l ih =>
      intro hn hsub
      obtain ⟨ha, hl⟩ := List.nodup_cons.1 hn
      obtain ⟨kv, hkv, hck⟩ := hI.held a (hsub a (List.mem_cons_self a l))
      have hrest := ih hl (fun b hb => hsub b (List.mem_cons_of_mem a hb))
      rw [List.filterMap_cons, hkv]
      simp only [List.map_cons]
      refine List.nodup_cons.2 ⟨?_, hrest⟩
      intro hmem
      obtain ⟨e, he, hek⟩ := List.mem_map.1 hmem
      obtain ⟨b, hb, hbe⟩ := List.mem_filterMap.1 he
      obtain ⟨e2, h1, h2⟩ := hI.held b (hsub b (List.mem_cons_of_mem a hb))
      rw [hbe] at h1
      cases h1
      rw [hek, hck] at h2
      have : a = b := Option.some.inj h2
      exact ha (this ▸ hb)
  exact key c.ll hI.nodup (fun a ha => ha)

theorem Inv.cache_isSome_iff {c : Cache} (hI : Inv c) (k : String) :
    (c.cache k).isSome = true ↔ k ∈ c.keys := by
  constructor
  · intro h
    obtain ⟨el, hel⟩ := Option.isSome_iff_exists.1 h
    obtain ⟨kv, hkv, hkey⟩ := hI.mem_entries hel
    exact List.mem_map.2 ⟨kv, hkv, hkey⟩
  · intro h
    obtain ⟨e, he, hek⟩ := List.mem_map.1 h
    obtain ⟨el, hel, _⟩ := hI.cache_of_mem he
    rw [← hek, hel]
    rfl

theorem Inv.get_isSome_iff {c : Cache} (hI : Inv c) (k : String) :
    (c.Get k).2.isSome = true ↔ k ∈ c.keys := by
  rw [← hI.cache_isSome_iff]
  cases hk : c.cache k with
  | none => simp [Get_miss hk]
  | some el =>
    obtain ⟨_, kv, hkv, _⟩ := hI.indexed k el hk
    simp [Cache.Get, hk, hkv]

end LRU

namespace LRU

/-- C12. Frame condition of `Get` in a reachable state: `nbytes`, `Len()`
and the collection of held entries do not change (the list is only
reordered), `OnEvicted` is not invoked, and for a key that is not held the
result is `(nil, false)` and the whole state, recency order included, is the
one before the call. -/
theorem C12_get_frame (c : Cache) (h : Reachable c) (k : String) :
    (c.Get k).1.nbytes = c.nbytes ∧ (c.Get k).1.Len = c.Len ∧
      (c.Get k).1.entries.Perm c.entries ∧ (c.Get k).1.evictions = c.evictions ∧
      (k ∉ c.keys → c.Get k = (c, none)) := by
  obtain ⟨hp, hh, _, hn, _, he, _⟩ := Get_frame c k
  refine ⟨hn, ?_, ?_, he, ?_⟩
  · simp [Cache.Len, hp.length_eq]
  · unfold Cache.entries
    rw [hh]
    exact hp.filterMap _
  · intro hk
    apply Get_miss
    cases hc : c.cache k with
    | none => rfl
    | some el =>
      obtain ⟨kv, hkv, hkey⟩ := h.holds.mem_entries hc
      exact absurd (List.mem_map.2 ⟨kv, hkv, hkey⟩) hk

theorem C12_get_frame_witness :
    Reachable demo3 ∧
      ((demo3.Get "k2").1.nbytes = demo3.nbytes ∧ (demo3.Get "k2").1.Len = demo3.Len ∧
        (demo3.Get "k2").1.entries.Perm demo3.entries ∧
        (demo3.Get "k2").1.evictions = demo3.evictions ∧
        ("k2" ∉ demo3.keys → demo3.Get "k2" = (demo3, none))) :=
  ⟨reachable_demo3, C12_get_frame demo3 reachable_demo3 "k2"⟩

/-- C20. Index and recency list agree in every reachable state: no two
entries of the list carry the same key; a key is in the index exactly when an
entry of the list carries it; the element an index entry points to is in the
list and carries that key; hence `Len()` is the number of distinct keys held,
and `Get(k)` succeeds exactly when an entry of the list carries `k`. -/
theorem C20_index_list_agree (c : Cache) (h : Reachable c) :
    c.keys.Nodup ∧ (∀ k, (c.cache k).isSome = true ↔ k ∈ c.keys) ∧
      (∀ k el, c.cache k = some el → el ∈ c.ll ∧ ∃ kv, c.heap el = some kv ∧ kv.key = k) ∧
      c.Len = (c.keys.dedup.length : Int) ∧
      (∀ k, (c.Get k).2.isSome = true ↔ k ∈ c.keys) := by
  have hI := h.holds
  refine ⟨hI.keys_nodup, hI.cache_isSome_iff, hI.indexed, ?_, hI.get_isSome_iff⟩
  rw [hI.keys_nodup.dedup]
  simp [Cache.Len, Cache.keys, hI.entries_length]

theorem C20_index_list_agree_witness :
    Reachable demo3 ∧
      (demo3.keys.Nodup ∧ (∀ k, (demo3.cache k).isSome = true ↔ k ∈ demo3.keys) ∧
        (∀ k el, demo3.cache k = some el →
          el ∈ demo3.ll ∧ ∃ kv, demo3.heap el = some kv ∧ kv.key = k) ∧
        demo3.Len = (demo3.keys.dedup.length : Int) ∧
        (∀ k, (demo3.Get k).2.isSome = true ↔ k ∈ demo3.keys)) :=
  ⟨reachable_demo3, C20_index_list_agree demo3 reachable_demo3⟩

end LRU

namespace LRU

theorem reverse_drop_split (es : List entry) (n : Nat) (h : n ≤ es.length - 1) :
    (es.drop n).reverse = es.drop (es.length - 1) ++ (es.dropLast.drop n).reverse := by
  rcases List.eq_nil_or_concat es with hn | ⟨rest, x, hx⟩
  · simp [hn]
  · have hx2 : es = rest ++ [x] := by simpa using hx
    subst hx2
    have hl : (rest ++ [x]).length - 1 = rest.length := by simp
    rw [hl] at h ⊢
    rw [List.dropLast_concat, List.drop_left, List.drop_append_of_le_length h]
    simp

/-- The calls of `OnEvicted` made by one `RemoveOldest`. -/
theorem RemoveOldest_log {c : Cache} (hI : Inv c) :
    ∃ calls, c.RemoveOldest.evictions = c.evictions ++ calls ∧
      calls.map Call.pair =
        if c.OnEvicted then (c.entries.drop (c.entries.length - 1)).map entry.pair else [] := by
  rcases List.eq_nil_or_concat c.ll with h | ⟨ys, el, h⟩
  · rw [RemoveOldest_nil h]
    refine ⟨[], by simp, ?_⟩
    simp [Cache.entries, h]
  · have h2 : c.ll = ys ++ [el] := by simpa using h
    obtain ⟨kv, _, hent, heq, _, _⟩ := RemoveOldest_concat hI h2
    have hl : (ys.filterMap c.heap ++ [kv]).length - 1 = (ys.filterMap c.heap).length := by simp
    rw [heq, hent, hl, List.drop_left]
    cases ho : c.OnEvicted
    · exact ⟨[], by simp [removed, ho], by simp⟩
    · exact ⟨[⟨kv.key, kv.value, ys, toInt64 (c.nbytes - toInt64 (len kv.key + kv.value.Len))⟩],
        by simp [removed, ho], by simp [Call.pair, entry.pair]⟩

/-- The calls of `OnEvicted` made by the eviction loop: one for each entry
dropped from the back, in the order of removal. -/
theorem evictLoop_log (fuel : Nat) : ∀ {c d : Cache}, Inv c → evictLoop fuel c = some d →
    ∃ calls, d.evictions = c.evictions ++ calls ∧
      calls.map Call.pair =
        if c.OnEvicted then ((c.entries.drop d.entries.length).reverse).map entry.pair
        else [] := by
  induction fuel with
  | zero => intro c d _ h; simp [evictLoop] at h
  | succ fuel ih =>
    intro c d hI h
    by_cases ho : c.maxBytes ≠ 0 ∧ c.maxBytes < c.nbytes
    · rw [evictLoop, if_pos ho] at h
      obtain ⟨hI2, hent, _, _, hcb⟩ := RemoveOldest_spec hI
      obtain ⟨_, _, _, _, n, hn, hd, _⟩ := evictLoop_spec fuel hI2 h
      obtain ⟨calls1, e1, m1⟩ := RemoveOldest_log hI
      obtain ⟨calls2, e2, m2⟩ := ih hI2 h
      have hdl : d.entries.length ≤ c.entries.length - 1 := by
        rw [hd, List.length_take, ← List.length_dropLast, ← hent]
        exact Nat.min_le_right _ _
      refine ⟨calls1 ++ calls2, by rw [e2, e1, List.append_assoc], ?_⟩
      rw [List.map_append, m1, m2, hcb, hent]
      cases c.OnEvicted
      · simp
      · simp only [if_true]
        rw [reverse_drop_split c.entries _ hdl, List.map_append]
    · rw [evictLoop, if_neg ho] at h
      cases h
      exact ⟨[], by simp, by simp⟩

/-- C11. The eviction callback fires exactly for evictions.  In a reachable
state `Add(k, v)` returns when the limit is not negative, and whenever it
returns it has kept a prefix of the list that has the new entry in front,
and the `(key, value)` pairs passed to `OnEvicted` during the call are the
entries dropped from the back of that list, the least recently used first
(no call when `OnEvicted` is nil).  When `nbytes` is within the limit after
the insertion, nothing is dropped and `OnEvicted` is not called, also when
`k` was held and its value is replaced. -/
theorem C11_eviction_callback (c : Cache) (h : Reachable c) (k : String) (v : Value)
    (fuel : Nat) :
    (0 ≤ c.maxBytes → c.ll.length + 1 < fuel → ∃ d, c.Add fuel k v = some d) ∧
    ∀ d, c.Add fuel k v = some d →
      ∃ calls, d.evictions = c.evictions ++ calls ∧
        d.entries = (⟨k, v⟩ :: without c.entries k).take d.entries.length ∧
        calls.map Call.pair =
          (if c.OnEvicted then
            (((⟨k, v⟩ :: without c.entries k).drop d.entries.length).reverse).map entry.pair
           else []) ∧
        ((c.maxBytes = 0 ∨ (c.insert k v).nbytes ≤ c.maxBytes) →
          calls = [] ∧ d.entries = ⟨k, v⟩ :: without c.entries k) := by
  have hI := h.holds
  refine ⟨fun h0 hf => Add_total hI h0 hf k v, fun d hd => ?_⟩
  obtain ⟨hI1, hent, _, hcb, hev⟩ := insert_spec hI k v
  obtain ⟨_, _, _, _, n, hn, hdn, _⟩ := evictLoop_spec fuel hI1 hd
  obtain ⟨calls, e1, m1⟩ := evictLoop_log fuel hI1 hd
  rw [hent] at hdn hn m1
  rw [hev] at e1
  rw [hcb] at m1
  have hlen : d.entries.length = n := by
    rw [hdn, List.length_take]
    exact Nat.min_eq_left hn
  refine ⟨calls, e1, by rw [hlen]; exact hdn, m1, fun hfit => ?_⟩
  have hfull := Add_entries_of hI hd ((without c.entries k).length + 1) (le_refl _)
    (by
      have : ((⟨k, v⟩ :: without c.entries k).take ((without c.entries k).length + 1)) =
          ⟨k, v⟩ :: without c.entries k := by
        rw [← List.length_cons ⟨k, v⟩ (without c.entries k), List.take_length]
      rw [this, ← hent, ← hI1.nbytes_eq]
      exact hfit)
    (fun m h1 h2 => absurd h2 (by omega))
  have hfull2 : d.entries = ⟨k, v⟩ :: without c.entries k := by
    rw [hfull, ← List.length_cons ⟨k, v⟩ (without c.entries k), List.take_length]
  refine ⟨?_, hfull2⟩
  have hnil : calls.map Call.pair = [] := by
    rw [m1, hfull2, List.drop_length]
    simp
  exact List.map_eq_nil_iff.1 hnil

theorem C11_eviction_callback_witness :
    Reachable demo2 ∧
      ∃ d calls, demo2.Add 4 "k3" ⟨3, 2⟩ = some d ∧ d.evictions = demo2.evictions ++ calls ∧
        d.entries = (⟨"k3", ⟨3, 2⟩⟩ :: without demo2.entries "k3").take d.entries.length ∧
        calls.map Call.pair =
          (if demo2.OnEvicted then
            (((⟨"k3", ⟨3, 2⟩⟩ :: without demo2.entries "k3").drop
              d.entries.length).reverse).map entry.pair
           else []) :=
  let r := C11_eviction_callback demo2 reachable_demo2 "k3" ⟨3, 2⟩ 4
  let ⟨d, hd⟩ := r.1 (by decide) (by decide)
  let ⟨calls, h1, h2, h3, _⟩ := r.2 d hd
  ⟨reachable_demo2, d, calls, hd, h1, h2, h3⟩

end LRU

namespace LRU

theorem insert_ll_held {c : Cache} {k : String} {el : Nat} (hk : c.cache k = some el)
    (v : Value) : (c.insert k v).ll = MoveToFront c.ll el := by
  cases hh : c.heap el <;> simp [Cache.insert, hk, hh]

theorem evictLoop_of_not_over {c : Cache} (h : ¬ c.over) {fuel : Nat} (hf : 0 < fuel) :
    evictLoop fuel c = some c := by
  obtain ⟨f, rfl⟩ := Nat.exists_eq_succ_of_ne_zero (Nat.ne_of_gt hf)
  unfold Cache.over at h
  rw [evictLoop, if_neg h]

theorem mem_keys_without (es : List entry) (k k2 : String) (h : k2 ≠ k) :
    k2 ∈ (without es k).map entry.key ↔ k2 ∈ es.map entry.key := by
  constructor
  · intro hm
    obtain ⟨e, he, hek⟩ := List.mem_map.1 hm
    exact List.mem_map.2 ⟨e, (mem_without he).1, hek⟩
  · intro hm
    obtain ⟨e, he, hek⟩ := List.mem_map.1 hm
    refine List.mem_map.2 ⟨e, ?_, hek⟩
    unfold without
    exact List.mem_filter.2 ⟨he, by simpa [hek] using h⟩

theorem reachable_lone : Reachable lone :=
  ((reachable_new 0 false).added (by decide) "a" ⟨1, 0⟩).1

/-- C17, counterexample. On a cache without limit holding "a" with a value
of `Len() = 0` (`nbytes = 1`), `Add("a", v)` with `v.Len() = 2^63 - 1` evicts
nothing and leaves `nbytes = -2^63`, not `1 + (2^63 - 1)`. -/
theorem C17_in_place_update_counterexample :
    Reachable lone ∧ (lone.Get "a").2 = some ⟨1, 0⟩ ∧ lone.maxBytes = 0 ∧ lone.nbytes = 1 ∧
      lone.Add 3 "a" ⟨2, 9223372036854775807⟩ = some lone2 ∧ lone2.keys = ["a"] ∧
      lone2.nbytes = -9223372036854775808 ∧
      lone2.nbytes ≠
        lone.nbytes + ((⟨2, 9223372036854775807⟩ : Value).Len - (⟨1, 0⟩ : Value).Len) :=
  ⟨reachable_lone, by decide, by decide, by decide,
    (reachable_lone.added (by decide) "a" ⟨2, 9223372036854775807⟩).2, by decide, by decide,
    by decide⟩

/-- C17, amended. In-place update: in a reachable state where `k` is held
with the value `old`, an `Add(k, v)` that leaves `nbytes` within the limit (so
that the loop evicts nothing) returns; `Len()` and the set of held keys are
unchanged; `v` is the value of `k`; `k` is at the front and the other entries
keep their order; `nbytes` changes by `v.Len() - old.Len()` in `int64`
arithmetic (modulo `2^64`), and by exactly that amount when the result lies
in the range of `int64`; `OnEvicted` is not called. -/
theorem C17_in_place_update (c : Cache) (h : Reachable c) (k : String) (v old : Value)
    (hheld : (c.Get k).2 = some old)
    (hfit : c.maxBytes = 0 ∨ toInt64 (c.nbytes + (v.Len - old.Len)) ≤ c.maxBytes)
    (fuel : Nat) (hf : 0 < fuel) :
    ∃ d, c.Add fuel k v = some d ∧ d.Len = c.Len ∧ (∀ k2, k2 ∈ d.keys ↔ k2 ∈ c.keys) ∧
      (d.Get k).2 = some v ∧ d.entries = ⟨k, v⟩ :: without c.entries k ∧
      d.nbytes = toInt64 (c.nbytes + (v.Len - old.Len)) ∧
      (-9223372036854775808 ≤ c.nbytes + (v.Len - old.Len) →
        c.nbytes + (v.Len - old.Len) ≤ 9223372036854775807 →
        d.nbytes = c.nbytes + (v.Len - old.Len)) ∧
      d.evictions = c.evictions := by
  have hI := h.holds
  obtain ⟨hI1, hent, hmax, _, hev⟩ := insert_spec hI k v
  have hlook : lookup c.entries k = some old := by rw [← (Get_spec hI k).2.2.1]; exact hheld
  have hfind := lookup_some hlook
  cases hk : c.cache k with
  | none => rw [Get_miss hk] at hheld; cases hheld
  | some el =>
    obtain ⟨kv, _, _, _, _, _, hfind2, hwo, htot⟩ := hI.locate hk
    rw [hfind] at hfind2
    cases hfind2
    have hbytes : (c.insert k v).nbytes = toInt64 (c.nbytes + (v.Len - old.Len)) := by
      have ht : total (⟨k, v⟩ :: without c.entries k) =
          (len k + v.Len) + total (List.filterMap c.heap (c.ll.erase el)) := by
        rw [hwo]
        simp [total, entry.size]
      have hs : (⟨k, old⟩ : entry).size = len k + old.Len := rfl
      rw [hI1.nbytes_eq, hent, hI.nbytes_eq, htot, ht, hs]
      unfold toInt64
      omega
    have hno : ¬ (c.insert k v).over := by
      unfold Cache.over
      rw [hmax, hbytes]
      intro hx
      omega
    refine ⟨c.insert k v, evictLoop_of_not_over hno hf, ?_, ?_, ?_, hent, hbytes, ?_, hev⟩
    · have := (MoveToFront_perm c.ll el).length_eq
      simp [Cache.Len, insert_ll_held hk v, this]
    · intro k2
      unfold Cache.keys
      rw [hent]
      by_cases hkk : k2 = k
      · subst hkk
        have hm : (⟨k2, old⟩ : entry) ∈ c.entries := List.mem_of_find?_eq_some hfind
        have : k2 ∈ c.entries.map entry.key := List.mem_map.2 ⟨_, hm, rfl⟩
        simp [this]
      · rw [List.map_cons, List.mem_cons, mem_keys_without _ _ _ hkk]
        simp [hkk]
    · rw [(Get_spec hI1 k).2.2.1, hent]
      exact lookup_cons_self k v _
    · intro h1 h2
      rw [hbytes, toInt64_of_range h1 h2]

theorem C17_in_place_update_witness :
    Reachable demo3 ∧ (demo3.Get "k2").2 = some ⟨2, 2⟩ ∧
      (demo3.maxBytes = 0 ∨
        toInt64 (demo3.nbytes + ((⟨5, 2⟩ : Value).Len - (⟨2, 2⟩ : Value).Len)) ≤
          demo3.maxBytes) ∧
      ∃ d, demo3.Add 1 "k2" ⟨5, 2⟩ = some d ∧ d.Len = demo3.Len ∧
        (∀ k2, k2 ∈ d.keys ↔ k2 ∈ demo3.keys) ∧ (d.Get "k2").2 = some ⟨5, 2⟩ ∧
        d.entries = ⟨"k2", ⟨5, 2⟩⟩ :: without demo3.entries "k2" ∧
        d.nbytes = demo3.nbytes + ((⟨5, 2⟩ : Value).Len - (⟨2, 2⟩ : Value).Len) ∧
        d.evictions = demo3.evictions :=
  let ⟨d, h1, h2, h3, h4, h5, _, h7, h8⟩ :=
    C17_in_place_update demo3 reachable_demo3 "k2" ⟨5, 2⟩ ⟨2, 2⟩ (by decide) (by decide) 1
      (by decide)
  ⟨reachable_demo3, by decide, by decide, d, h1, h2, h3, h4, h5, h7 (by decide) (by decide), h8⟩

end LRU

namespace LRU

/-- C15, failing input. On a cache created with `maxBytes = -1`, the call
`Add("a", v)` with `v.Len() = 1` does not return, whatever the fuel: once the
list is empty the loop condition `-1 != 0 && -1 < 0` still holds and
`RemoveOldest` changes nothing. -/
theorem C15_add_never_returns :
    ∀ fuel : Nat, (NewCache (-1) false).Add fuel "a" ⟨0, 1⟩ = none := by
  have stuck : ∀ (fuel : Nat) (c : Cache), c.ll = [] → c.over → evictLoop fuel c = none := by
    intro fuel
    induction fuel with
    | zero => intro c _ _; rfl
    | succ fuel ih =>
      intro c hl ho
      have ho2 : c.maxBytes ≠ 0 ∧ c.maxBytes < c.nbytes := ho
      rw [evictLoop, if_pos ho2, RemoveOldest_nil hl]
      exact ih c hl ho
  intro fuel
  cases fuel with
  | zero => rfl
  | succ fuel =>
    have h1 : ((NewCache (-1) false).insert "a" ⟨0, 1⟩).maxBytes ≠ 0 ∧
        ((NewCache (-1) false).insert "a" ⟨0, 1⟩).maxBytes <
          ((NewCache (-1) false).insert "a" ⟨0, 1⟩).nbytes := by decide
    have h2 : ((NewCache (-1) false).insert "a" ⟨0, 1⟩).RemoveOldest.ll = [] := by decide
    have h3 : ((NewCache (-1) false).insert "a" ⟨0, 1⟩).RemoveOldest.over := by decide
    unfold Cache.Add
    rw [evictLoop, if_pos h1]
    exact stuck fuel _ h2 h3

end LRU

namespace LRU

theorem lookup_cons (e : entry) (es : List entry) (k : String) :
    lookup (e :: es) k = if e.key = k then some e.value else lookup es k := by
  by_cases h : e.key = k <;> simp [lookup, List.find?_cons, h]

theorem lookup_without_ne (es : List entry) {k k2 : String} (h : k2 ≠ k) :
    lookup (without es k) k2 = lookup es k2 := by
  induction es with
  | nil => rfl
  | cons e es ih =>
    by_cases hek : e.key = k
    · have h1 : without (e :: es) k = without es k := by simp [without, hek]
      have h2 : ¬ e.key = k2 := by rw [hek]; exact fun hx => h hx.symm
      rw [h1, ih, lookup_cons, if_neg h2]
    · have h1 : without (e :: es) k = e :: without es k := by simp [without, hek]
      rw [h1, lookup_cons, lookup_cons, ih]

theorem lookup_promote (es : List entry) (k k2 : String) :
    lookup (promote es k) k2 = lookup es k2 := by
  unfold promote
  cases hf : es.find? (fun e => decide (e.key = k)) with
  | none => rfl
  | some e =>
    have hek : e.key = k := by simpa using List.find?_some hf
    show lookup (e :: without es k) k2 = lookup es k2
    rw [lookup_cons]
    by_cases hk : k = k2
    · subst hk
      rw [if_pos hek]
      simp [lookup, hf]
    · rw [if_neg (by rw [hek]; exact hk), lookup_without_ne es (fun hx => hk hx.symm)]

theorem latest_cons (k : String) (v : Value) (adds : List (String × Value)) (k2 : String) :
    latest ((k, v) :: adds) k2 = if k = k2 then some v else latest adds k2 := by
  by_cases h : k = k2 <;> simp [latest, List.find?_cons, h]

theorem lookup_isSome_iff (es : List entry) (k : String) :
    (lookup es k).isSome = true ↔ k ∈ es.map entry.key := by
  simp [lookup]

theorem latest_isSome_iff (adds : List (String × Value)) (k : String) :
    (latest adds k).isSome = true ↔ k ∈ adds.map Prod.fst := by
  simp [latest]

theorem Trace.reachable {maxBytes : Int} {cb : Bool} {adds : List (String × Value)}
    {c : Cache} (h : Trace maxBytes cb adds c) :
    Reachable c ∧ c.maxBytes = toInt64 maxBytes := by
  induction h with
  | new => exact ⟨ReachableWith.new _ _, rfl⟩
  | add fuel k v _ hadd ih =>
    exact ⟨ReachableWith.add fuel k v ih.1 trivial hadd, (Add_spec ih.1.holds hadd).2.1.trans ih.2⟩
  | get k _ ih =>
    exact ⟨ReachableWith.get k ih.1, (Get_frame _ k).2.2.2.2.1.trans ih.2⟩

/-- Without a limit `Add` is the insertion alone. -/
theorem Add_unbounded {c d : Cache} (h0 : c.maxBytes = 0) {fuel : Nat} {k : String}
    {v : Value} (h : c.Add fuel k v = some d) : d = c.insert k v := by
  have hm : (c.insert k v).maxBytes = 0 := by
    unfold Cache.insert
    cases hk : c.cache k with
    | none => simpa using h0
    | some el => cases hh : c.heap el <;> simpa [hh] using h0
  have hno : ¬ (c.insert k v).over := fun hx => hx.1 hm
  cases fuel with
  | zero => simp [Cache.Add, evictLoop] at h
  | succ f =>
    unfold Cache.Add at h
    rw [evictLoop_of_not_over hno (Nat.succ_pos f)] at h
    exact (Option.some.inj h).symm

theorem Trace.unbounded {cb : Bool} {adds : List (String × Value)} {c : Cache}
    (h : Trace 0 cb adds c) :
    (∀ k, lookup c.entries k = latest adds k) ∧ c.evictions = [] := by
  induction h with
  | new => exact ⟨fun k => rfl, rfl⟩
  | @add adds c d fuel k v hc hadd ih =>
    obtain ⟨hr, hm⟩ := hc.reachable
    rw [toInt64_zero] at hm
    have hd := Add_unbounded hm hadd
    obtain ⟨_, hent, _, _, hev⟩ := insert_spec hr.holds k v
    subst hd
    refine ⟨fun k2 => ?_, by rw [hev]; exact ih.2⟩
    rw [hent, lookup_cons, latest_cons]
    by_cases hk : k = k2
    · simp [hk]
    · rw [if_neg hk, if_neg hk, lookup_without_ne _ (fun hx => hk hx.symm)]
      exact ih.1 k2
  | @get adds c k hc ih =>
    obtain ⟨hr, _⟩ := hc.reachable
    obtain ⟨_, hent, _, _, _, _, hev, _⟩ := Get_spec hr.holds k
    refine ⟨fun k2 => ?_, by rw [hev]; exact ih.2⟩
    rw [hent, lookup_promote]
    exact ih.1 k2

/-- C13. Capacity 0 is unbounded: after any sequence of `Add` and `Get` calls
on a cache created with `maxBytes = 0`, `Get(k)` returns the value of the
latest `Add` of `k` for every key, so every key ever added is found; `Len()`
is the number of distinct keys added; `OnEvicted` has never been called; and
a further `Add` returns without dropping an entry or calling `OnEvicted`. -/
theorem C13_capacity_zero_unbounded (cb : Bool) (adds : List (String × Value)) (c : Cache)
    (h : Trace 0 cb adds c) :
    (∀ k, (c.Get k).2 = latest adds k) ∧
      (∀ k ∈ adds.map Prod.fst, ∃ v, (c.Get k).2 = some v) ∧
      c.Len = ((adds.map Prod.fst).dedup.length : Int) ∧ c.evictions = [] ∧
      (∀ (k : String) (v : Value) (fuel : Nat), 0 < fuel →
        ∃ d, c.Add fuel k v = some d ∧ d.entries = ⟨k, v⟩ :: without c.entries k ∧
          d.evictions = []) := by
  obtain ⟨hr, hm⟩ := h.reachable
  rw [toInt64_zero] at hm
  obtain ⟨hlook, hev⟩ := h.unbounded
  have hI := hr.holds
  have hget : ∀ k, (c.Get k).2 = latest adds k := fun k => by
    rw [(Get_spec hI k).2.2.1]; exact hlook k
  refine ⟨hget, ?_, ?_, hev, ?_⟩
  · intro k hk
    have := (latest_isSome_iff adds k).2 hk
    obtain ⟨v, hv⟩ := Option.isSome_iff_exists.1 this
    exact ⟨v, by rw [hget k, hv]⟩
  · have hperm : c.keys.Perm (adds.map Prod.fst).dedup := by
      rw [List.perm_ext_iff_of_nodup hI.keys_nodup (List.nodup_dedup _)]
      intro k
      rw [List.mem_dedup, ← latest_isSome_iff, ← hlook k, lookup_isSome_iff]
      rfl
    rw [← hperm.length_eq]
    simp [Cache.Len, Cache.keys, hI.entries_length]
  · intro k v fuel hf
    obtain ⟨_, hent, hmax, _, hev2⟩ := insert_spec hI k v
    have hno : ¬ (c.insert k v).over := fun hx => hx.1 (hmax.trans hm)
    exact ⟨c.insert k v, evictLoop_of_not_over hno hf, hent, by rw [hev2]; exact hev⟩

end LRU

namespace LRU

theorem Trace.step {maxBytes : Int} {cb : Bool} {adds : List (String × Value)} {c : Cache}
    (h : Trace maxBytes cb adds c) (h0 : 0 ≤ toInt64 maxBytes) (k : String) (v : Value) :
    Trace maxBytes cb ((k, v) :: adds) (c.added k v) := by
  obtain ⟨hr, hm⟩ := h.reachable
  exact Trace.add _ k v h (hr.added (by rw [hm]; exact h0) k v).2

theorem trace_free3 :
    Trace 0 true [("a", ⟨3, 1⟩), ("b", ⟨2, 7⟩), ("a", ⟨1, 5⟩)] free3 :=
  (Trace.get "a" (((Trace.new).step (by decide) "a" ⟨1, 5⟩).step (by decide) "b" ⟨2, 7⟩)).step
    (by decide) "a" ⟨3, 1⟩

theorem C13_capacity_zero_unbounded_witness :
    Trace 0 true [("a", ⟨3, 1⟩), ("b", ⟨2, 7⟩), ("a", ⟨1, 5⟩)] free3 ∧
      (free3.Get "a").2 = some ⟨3, 1⟩ ∧ (free3.Get "b").2 = some ⟨2, 7⟩ ∧ free3.Len = 2 ∧
      free3.evictions = [] :=
  let r := C13_capacity_zero_unbounded true [("a", ⟨3, 1⟩), ("b", ⟨2, 7⟩), ("a", ⟨1, 5⟩)] free3
    trace_free3
  ⟨trace_free3, (r.1 "a").trans (by decide), (r.1 "b").trans (by decide),
    r.2.2.1.trans (by decide), r.2.2.2.1⟩

end LRU

namespace Ring

theorem Add_nil_of_sorted {m : Map} (h : m.keys.Sorted (fun a b => a ≤ b)) : m.Add [] = m := by
  have : sortInts m.keys = m.keys := List.Sorted.insertionSort_eq h
  cases m
  simp only [Map.Add, List.foldl_nil] at this ⊢
  rw [this]

/-- C14. Empty-ring sentinel: for every hash function and key, `Get` on a
fresh `NewMap` ring returns the empty string; `Add` with zero node
identifiers leaves that ring unchanged, any number of times, so `Get` still
returns the empty string; the same holds for every ring without points, and
`Add` with zero identifiers changes no ring built by `NewMap` and `Add`. -/
theorem C14_empty_ring_sentinel (replicas : Int) (fn : Option Hash) (key : String) (n : Nat) :
    (NewMap replicas fn).Get key = "" ∧
      (fun m : Map => m.Add [])^[n] (NewMap replicas fn) = NewMap replicas fn ∧
      ((fun m : Map => m.Add [])^[n] (NewMap replicas fn)).Get key = "" ∧
      (∀ m : Map, m.keys = [] → m.Get key = "" ∧ m.Add [] = m) ∧
      (∀ (nodes : List String) (m : Map), Built nodes m → m.Add [] = m) := by
  have hfix : (fun m : Map => m.Add []) (NewMap replicas fn) = NewMap replicas fn :=
    Add_nil_of_sorted (by simp [NewMap])
  have hit : (fun m : Map => m.Add [])^[n] (NewMap replicas fn) = NewMap replicas fn :=
    @Function.iterate_fixed Map (fun m : Map => m.Add []) (NewMap replicas fn) hfix n
  refine ⟨Get_nil rfl key, hit, by rw [hit]; exact Get_nil rfl key, ?_, ?_⟩
  · intro m hm
    exact ⟨Get_nil hm key, Add_nil_of_sorted (by rw [hm]; exact List.sorted_nil)⟩
  · intro nodes m hb
    exact Add_nil_of_sorted hb.rinv.sorted

theorem C14_empty_ring_sentinel_witness :
    (NewMap 3 none).Get "key" = "" ∧
      (fun m : Map => m.Add [])^[5] (NewMap 3 none) = NewMap 3 none ∧
      ((fun m : Map => m.Add [])^[5] (NewMap 3 none)).Get "key" = "" :=
  let r := C14_empty_ring_sentinel 3 none "key" 5
  ⟨r.1, r.2.1, r.2.2.1⟩

/-- C18. The keys are sorted after every `Add`: for any ring (any hash
function, any replicas, any points already present) and any batch of node
identifiers, `m.keys` is in non-decreasing order when `Add` returns. -/
theorem C18_ring_points_sorted (m : Map) (batch : List String) :
    (m.Add batch).keys.Sorted (fun a b => a ≤ b) :=
  (ring_Add_spec m batch).2.2.1

/-- C16, counterexample. With 2 replicas under `digits`, `Add("12", "2")`
hashes replica 0 of "12" and replica 1 of "2" to the point 12; the point is
on the ring, and `hashMap` maps it to "2", not to "12". -/
theorem C16_owner_counterexample :
    "12" ∈ ["12", "2"] ∧ (0 : Int) < (NewMap 2 (some digits)).replicas ∧
      (NewMap 2 (some digits)).point (toString 0 ++ "12") = 12 ∧
      12 ∈ collideRing.keys ∧ collideRing.hashMap 12 = some "2" ∧
      collideRing.hashMap 12 ≠ some "12" := by
  decide

/-- The owner recorded for a point after the outer loop of `Add`: the last
identifier of the batch that produces the point, and the former owner when
none does. -/
theorem fold_addNode_owner : ∀ (batch : List String) (m : Map) (p : Nat),
    (batch.foldl Map.addNode m).hashMap p =
      (batch.reverse.find? (fun n => decide (p ∈ m.points n))).or (m.hashMap p) := by
  intro batch
  induction batch with
  | nil => intro m p; simp
  | cons node batch ih =>
    intro m p
    obtain ⟨a1, a2, _, a4⟩ := addNode_spec m node
    have hf : (fun n => decide (p ∈ (m.addNode node).points n)) =
        fun n => decide (p ∈ m.points n) := by
      funext n
      rw [points_congr a1 a2]
    simp only [List.foldl_cons]
    rw [ih (m.addNode node) p, hf, a4 p, List.reverse_cons, List.find?_append]
    cases hfind : batch.reverse.find? (fun n => decide (p ∈ m.points n)) with
    | some x => simp
    | none =>
      by_cases hp : p ∈ m.points node
      · simp [hp, List.find?_cons]
      · simp [hp, List.find?_cons]

/-- C16, amended. After `Add(batch)` on any ring, for every identifier of the
batch and every replica index `i` in `[0, replicas)`, the point hashed from
`decimal(i) ++ nodeID` is in `m.keys`, and `hashMap` maps it to the last
identifier, in the order of the batch, that produces this point: to `nodeID`
itself unless an identifier after that occurrence of `nodeID` in the batch
produces the same point. -/
theorem C16_add_records_points (m : Map) (batch : List String) (node : String)
    (hn : node ∈ batch) (i : Nat) (hi : (i : Int) < m.replicas) :
    m.point (toString i ++ node) ∈ (m.Add batch).keys ∧
      (m.Add batch).hashMap (m.point (toString i ++ node)) =
        batch.reverse.find? (fun n => decide (m.point (toString i ++ node) ∈ m.points n)) ∧
      (∃ owner ∈ batch, (m.Add batch).hashMap (m.point (toString i ++ node)) = some owner ∧
        m.point (toString i ++ node) ∈ m.points owner) ∧
      (∀ pre post, batch = pre ++ node :: post →
        (∀ other ∈ post, m.point (toString i ++ node) ∉ m.points other) →
        (m.Add batch).hashMap (m.point (toString i ++ node)) = some node) := by
  obtain ⟨_, _, _, a4, _, _, a7⟩ := ring_Add_spec m batch
  have hp : m.point (toString i ++ node) ∈ m.points node := by
    unfold Map.points
    exact List.mem_map.2 ⟨i, List.mem_range.2 (by omega), rfl⟩
  have hex : ∃ n ∈ batch, m.point (toString i ++ node) ∈ m.points n := ⟨node, hn, hp⟩
  have hown : (m.Add batch).hashMap (m.point (toString i ++ node)) =
      (batch.reverse.find? (fun n => decide (m.point (toString i ++ node) ∈ m.points n))).or
        (m.hashMap (m.point (toString i ++ node))) :=
    fold_addNode_owner batch m _
  have hsome : ∃ x, batch.reverse.find?
      (fun n => decide (m.point (toString i ++ node) ∈ m.points n)) = some x := by
    apply Option.isSome_iff_exists.1
    rw [List.find?_isSome]
    exact ⟨node, List.mem_reverse.2 hn, by simpa using hp⟩
  obtain ⟨x, hx⟩ := hsome
  have hmap : (m.Add batch).hashMap (m.point (toString i ++ node)) =
      batch.reverse.find? (fun n => decide (m.point (toString i ++ node) ∈ m.points n)) := by
    rw [hown, hx]
    rfl
  refine ⟨(a4 _).2 (Or.inr hex), hmap, a7 _ hex, fun pre post hb hpost => ?_⟩
  rw [hmap, hb, List.reverse_append, List.reverse_cons, List.append_assoc, List.find?_append]
  have hnone : post.reverse.find?
      (fun n => decide (m.point (toString i ++ node) ∈ m.points n)) = none := by
    rw [List.find?_eq_none]
    intro y hy
    simpa using hpost y (List.mem_reverse.1 hy)
  rw [hnone]
  simp [List.find?_cons, hp]

theorem C16_add_records_points_witness :
    "2" ∈ ["12", "2"] ∧ ((1 : Nat) : Int) < (NewMap 2 (some digits)).replicas ∧
      (NewMap 2 (some digits)).point (toString 1 ++ "2") ∈ collideRing.keys ∧
      collideRing.hashMap ((NewMap 2 (some digits)).point (toString 1 ++ "2")) = some "2" :=
  let r := C16_add_records_points (NewMap 2 (some digits)) ["12", "2"] "2" (by decide) 1
    (by decide)
  ⟨by decide, by decide, r.1, r.2.2.2 ["12"] [] rfl (fun _ h => nomatch h)⟩

theorem built_dupRing : Built ["2", "2"] dupRing :=
  Built.add ["2"] (Built.add ["2"] (Built.new 3 (some digits)))

/-- C19, counterexample. `NewMap(3, digits)`, `Add("2")`, `Add("2")` gives 6
ring points, while `replicas` times the number of distinct identifiers added
is 3. -/
theorem C19_ring_size_counterexample :
    Built ["2", "2"] dupRing ∧ dupRing.keys.length = 6 ∧
      dupRing.replicas * ((["2", "2"] : List String).dedup.length : Int) = 3 ∧
      ¬ (dupRing.keys.length : Int) =
        dupRing.replicas * ((["2", "2"] : List String).dedup.length : Int) :=
  ⟨built_dupRing, by decide, by decide, by decide⟩

/-- C19, amended. After any sequence of `Add` calls on a ring created by
`NewMap`, `len(m.keys)` is `max(replicas, 0)` times the number of identifiers
passed to `Add`, each counted as often as it was passed; when `replicas >= 0`
and no identifier was passed twice this is `replicas` times the number of
distinct identifiers added. -/
theorem C19_ring_size (nodes : List String) (m : Map) (h : Built nodes m) :
    m.keys.length = m.replicas.toNat * nodes.length ∧
      (0 ≤ m.replicas → nodes.Nodup →
        (m.keys.length : Int) = m.replicas * (nodes.dedup.length : Int)) := by
  refine ⟨h.rinv.count, fun h0 hnd => ?_⟩
  rw [h.rinv.count, hnd.dedup]
  push_cast
  rw [Int.toNat_of_nonneg h0]

theorem C19_ring_size_witness :
    Built ["6", "4", "2"] demoRing ∧
      (demoRing.keys.length = demoRing.replicas.toNat * (["6", "4", "2"] : List String).length ∧
        (0 ≤ demoRing.replicas → (["6", "4", "2"] : List String).Nodup →
          (demoRing.keys.length : Int) =
            demoRing.replicas * ((["6", "4", "2"] : List String).dedup.length : Int))) :=
  ⟨built_demoRing, C19_ring_size ["6", "4", "2"] demoRing built_demoRing⟩

end Ring
